import Mathlib

/- Verification of the media-renamer core (media-renamer.py): the multi-pattern
   filename parser (parse_filename), the canonical-name formatter
   (get_filename_format), the collision-probing planner (get_unique_filepath)
   and the batch rename loop (rename_files).

   Modelling conventions:
   - Strings are lists of characters; Lean String literals enter through .data.
   - The regex character classes for digits and word characters are modelled
     over ASCII input, which covers every filename in the claims.
   - The nine alternatives of the single re.match pattern are modelled as
     token lists run in order by a deterministic matcher.  In this pattern a
     greedy one-or-more digit group is always followed by a literal dot and a
     greedy one-or-more word group is always last, so the backtracking regex
     engine behaves exactly like the maximal-munch matcher modelled here.
   - re.match anchors at the start only: trailing characters after the
     consumed prefix are permitted, exactly as in the runner below.
   - The filesystem seen by the planner is the list of entry names of the one
     directory being processed; the common directory prefix of every path the
     code builds and compares is dropped, so a path is its final component and
     an existence probe is membership in that list.
   - Python ints reaching the formatter are the nonnegative values produced by
     the parser, so numeric fields are Nat.
   - In rename_files the command-line flags are fixed to the batch mode
     (rename and yes set, so every planned rename is performed); printing is
     dropped, directory entries are the regular files in iteration order, and
     the single try/except around the whole loop is modelled by the function
     stopping with exit code 1 at the first raised exception, exactly as the
     caught exception makes the source return 1. -/

namespace MediaRenamer

/-- Decimal digit character class of the pattern, over ASCII input. -/
def isDig (c : Char) : Bool := c.isDigit

/-- Word character class of the pattern (letters, digits, underscore), over
ASCII input. -/
def isWord (c : Char) : Bool := c.isAlphanum || c == '_'

/-- Consume exactly n characters satisfying p: a fixed-width captured group. -/
def chomp (p : Char → Bool) : Nat → List Char → Option (List Char × List Char)
  | 0, s => some ([], s)
  | _ + 1, [] => none
  | n + 1, c :: s =>
    if p c then
      match chomp p n s with
      | some (g, r) => some (c :: g, r)
      | none => none
    else none

/-- Consume one literal character of the pattern. -/
def lit (c : Char) : List Char → Option (List Char)
  | [] => none
  | x :: s => if x = c then some s else none

/-- Consume a literal string of the pattern. -/
def litStr : List Char → List Char → Option (List Char)
  | [], s => some s
  | _ :: _, [] => none
  | c :: cs, x :: s => if x = c then litStr cs s else none

/-- Consume a maximal nonempty run of characters satisfying p: a greedy
one-or-more captured group. -/
def many1 (p : Char → Bool) (s : List Char) : Option (List Char × List Char) :=
  match s.takeWhile p with
  | [] => none
  | g => some (g, s.dropWhile p)

/-- One piece of a pattern alternative. -/
inductive Tok where
  | cls (p : Char → Bool) (n : Nat)
  | sym (c : Char)
  | str (cs : List Char)
  | plus (p : Char → Bool)

/-- Run a pattern alternative against a prefix of the input, returning the
captured groups in order.  Input remaining after the last token is allowed,
as re.match only anchors at the start. -/
def run : List Tok → List Char → Option (List (List Char))
  | [], _ => some []
  | Tok.cls p n :: ts, s =>
    match chomp p n s with
    | some (g, r) => (run ts r).map (fun gs => g :: gs)
    | none => none
  | Tok.sym c :: ts, s =>
    match lit c s with
    | some r => run ts r
    | none => none
  | Tok.str cs :: ts, s =>
    match litStr cs s with
    | some r => run ts r
    | none => none
  | Tok.plus p :: ts, s =>
    match many1 p s with
    | some (g, r) => (run ts r).map (fun gs => g :: gs)
    | none => none

/-- Alternative 1 of the pattern: YYYY-MM-DD HH.MM.SS.ext . -/
def toks1 : List Tok :=
  [Tok.cls isDig 4, Tok.sym '-', Tok.cls isDig 2, Tok.sym '-', Tok.cls isDig 2,
   Tok.sym ' ', Tok.cls isDig 2, Tok.sym '.', Tok.cls isDig 2, Tok.sym '.',
   Tok.cls isDig 2, Tok.sym '.', Tok.plus isWord]

/-- Alternative 2: IMG_YYYYMMDD_HHMMSS_N+.ext . -/
def toks2 : List Tok :=
  [Tok.str ['I', 'M', 'G', '_'], Tok.cls isDig 4, Tok.cls isDig 2, Tok.cls isDig 2,
   Tok.sym '_', Tok.cls isDig 2, Tok.cls isDig 2, Tok.cls isDig 2, Tok.sym '_',
   Tok.plus isDig, Tok.sym '.', Tok.plus isWord]

/-- Alternative 3: PXL_YYYYMMDD_HHMMSSN+.ext . -/
def toks3 : List Tok :=
  [Tok.str ['P', 'X', 'L', '_'], Tok.cls isDig 4, Tok.cls isDig 2, Tok.cls isDig 2,
   Tok.sym '_', Tok.cls isDig 2, Tok.cls isDig 2, Tok.cls isDig 2,
   Tok.plus isDig, Tok.sym '.', Tok.plus isWord]

/-- Alternative 4: Screenshot from YYYY-MM-DD HH-MM-SS.ext . -/
def toks4 : List Tok :=
  [Tok.str ['S', 'c', 'r', 'e', 'e', 'n', 's', 'h', 'o', 't', ' ', 'f', 'r', 'o', 'm', ' '], Tok.cls isDig 4, Tok.sym '-',
   Tok.cls isDig 2, Tok.sym '-', Tok.cls isDig 2, Tok.sym ' ',
   Tok.cls isDig 2, Tok.sym '-', Tok.cls isDig 2, Tok.sym '-',
   Tok.cls isDig 2, Tok.sym '.', Tok.plus isWord]

/-- Alternative 5: VID_YYYYMMDD_ww dddd.ext with a two word-character tag and
four digits. -/
def toks5 : List Tok :=
  [Tok.str ['V', 'I', 'D', '_'], Tok.cls isDig 4, Tok.cls isDig 2, Tok.cls isDig 2,
   Tok.sym '_', Tok.cls isWord 2, Tok.cls isDig 4, Tok.sym '.', Tok.plus isWord]

/-- Alternative 6: PXL_YYYYMMDD_HHMMSSNNN.ext with exactly three digits. -/
def toks6 : List Tok :=
  [Tok.str ['P', 'X', 'L', '_'], Tok.cls isDig 4, Tok.cls isDig 2, Tok.cls isDig 2,
   Tok.sym '_', Tok.cls isDig 2, Tok.cls isDig 2, Tok.cls isDig 2,
   Tok.cls isDig 3, Tok.sym '.', Tok.plus isWord]

/-- Alternative 7: IMG_YYYY-MM-DD-HH-MM-SS-NNN.ext . -/
def toks7 : List Tok :=
  [Tok.str ['I', 'M', 'G', '_'], Tok.cls isDig 4, Tok.sym '-', Tok.cls isDig 2,
   Tok.sym '-', Tok.cls isDig 2, Tok.sym '-', Tok.cls isDig 2, Tok.sym '-',
   Tok.cls isDig 2, Tok.sym '-', Tok.cls isDig 2, Tok.sym '-',
   Tok.cls isDig 3, Tok.sym '.', Tok.plus isWord]

/-- Alternative 8: IMG_YYYY-MM-DD-HH-MM-SS-NNN-N+.ext . -/
def toks8 : List Tok :=
  [Tok.str ['I', 'M', 'G', '_'], Tok.cls isDig 4, Tok.sym '-', Tok.cls isDig 2,
   Tok.sym '-', Tok.cls isDig 2, Tok.sym '-', Tok.cls isDig 2, Tok.sym '-',
   Tok.cls isDig 2, Tok.sym '-', Tok.cls isDig 2, Tok.sym '-',
   Tok.cls isDig 3, Tok.sym '-', Tok.plus isDig, Tok.sym '.', Tok.plus isWord]

/-- Alternative 9: YYYY-MM-DD HH.MM.SS_N+.ext . -/
def toks9 : List Tok :=
  [Tok.cls isDig 4, Tok.sym '-', Tok.cls isDig 2, Tok.sym '-', Tok.cls isDig 2,
   Tok.sym ' ', Tok.cls isDig 2, Tok.sym '.', Tok.cls isDig 2, Tok.sym '.',
   Tok.cls isDig 2, Tok.sym '_', Tok.plus isDig, Tok.sym '.', Tok.plus isWord]

/-- Number of capturing groups of a token list. -/
def capCount : List Tok → Nat
  | [] => 0
  | Tok.cls _ _ :: ts => capCount ts + 1
  | Tok.plus _ :: ts => capCount ts + 1
  | _ :: ts => capCount ts

/-- A token list is good when every greedy one-or-more group is last or is
followed by a literal the group class rejects; on good token lists the
maximal-munch runner agrees with the backtracking regex engine, and a match
survives appending input.  All nine alternatives below are good. -/
def goodToks : List Tok → Bool
  | [] => true
  | Tok.plus p :: ts =>
    (match ts with
     | [] => true
     | Tok.sym c :: _ => !(p c)
     | _ => false) && goodToks ts
  | _ :: ts => goodToks ts

/-- The ways an input can satisfy a token list: it decomposes into the groups
and literals of the tokens followed by arbitrary remaining input, each greedy
group maximal at its position.  This is exactly the graph of the runner. -/
inductive Shaped : List Tok → List (List Char) → List Char → Prop where
  | nil (s : List Char) : Shaped [] [] s
  | cls {p : Char → Bool} {n : Nat} {ts : List Tok} {gs : List (List Char)}
      {g r : List Char} :
      g.length = n → g.all p = true → Shaped ts gs r →
      Shaped (Tok.cls p n :: ts) (g :: gs) (g ++ r)
  | sym {c : Char} {ts : List Tok} {gs : List (List Char)} {r : List Char} :
      Shaped ts gs r → Shaped (Tok.sym c :: ts) gs (c :: r)
  | str {cs : List Char} {ts : List Tok} {gs : List (List Char)} {r : List Char} :
      Shaped ts gs r → Shaped (Tok.str cs :: ts) gs (cs ++ r)
  | plus {p : Char → Bool} {ts : List Tok} {gs : List (List Char)}
      {g r : List Char} :
      g ≠ [] → g.all p = true → (∀ c r2, r = c :: r2 → p c = false) →
      Shaped ts gs r → Shaped (Tok.plus p :: ts) (g :: gs) (g ++ r)

/-- First-success choice, as the regex engine tries alternatives in order. -/
def orE (a b : Option (List (List Char))) : Option (List (List Char)) :=
  match a with
  | some x => some x
  | none => b

/-- The whole nine-alternative pattern, alternatives tried in order; models
re.match of the pattern in parse_filename. -/
def matchPattern (s : List Char) : Option (List (List Char)) :=
  orE (run toks1 s) (orE (run toks2 s) (orE (run toks3 s) (orE (run toks4 s)
    (orE (run toks5 s) (orE (run toks6 s) (orE (run toks7 s)
      (orE (run toks8 s) (run toks9 s))))))))

/-- The normalized timestamp record built by parse_filename (the FileMetaData
dataclass). -/
structure FileMetaData where
  year : Nat
  month : Nat
  day : Nat
  hour : Nat
  minute : Nat
  second : Nat
  extension : List Char
deriving DecidableEq

/-- Python int() on the all-digit captured groups. -/
def intVal (g : List Char) : Nat :=
  g.foldl (fun a c => a * 10 + (c.toNat - 48)) 0

/-- Python int() applied to the two word-character tag group of the VID
alternative: it succeeds exactly when both characters are decimal digits and
raises ValueError otherwise (for a two-character word string no underscore
placement is a valid integer literal). -/
def intTag (g : List Char) : Option Nat :=
  if !g.isEmpty && g.all Char.isDigit then some (intVal g) else none

/-- Substring test, modelling the Python in operator on strings. -/
def hasSubstr (s pat : List Char) : Bool :=
  pat.isPrefixOf s ||
    match s with
    | [] => false
    | _ :: rest => hasSubstr rest pat

/-- Text after the last dot of a string, or none if it has no dot. -/
def afterLastDot : List Char → Option (List Char)
  | [] => none
  | c :: s =>
    match afterLastDot s with
    | some t => some t
    | none => if c = '.' then some s else none

/-- The pathlib suffix of a name with its leading dot removed: empty when the
name has no dot, when its only dot is its first character, or when its last
dot is its last character; otherwise the text after the last dot.  This is
exactly filename.suffix[1:] in the source. -/
def pyExtension (name : List Char) : List Char :=
  match name with
  | [] => []
  | _ :: s =>
    match afterLastDot s with
    | some t => if t = [] then [] else t
    | none => []

/-- The pathlib suffix of a name, leading dot included. -/
def pySuffixFull (name : List Char) : List Char :=
  match name with
  | [] => []
  | _ :: s =>
    match afterLastDot s with
    | some t => if t = [] then [] else '.' :: t
    | none => []

/-- The pathlib stem of a name: the name with its suffix removed. -/
def pyStem (name : List Char) : List Char :=
  name.take (name.length - (pySuffixFull name).length)

/-- Outcome of parse_filename: a record, the None return on no match, or a
raised ValueError. -/
inductive ParseOutcome where
  | record (m : FileMetaData)
  | noMatch
  | raises
deriving DecidableEq

/-- The parser parse_filename of the source: match the pattern, collect the
captured groups of the matched alternative, take year, month and day from the
first three groups and the extension from the pathlib suffix of the name, then
branch on the WA substring test, on the six-group VID case, and on the general
case. -/
def parse_filename (name : List Char) : ParseOutcome :=
  match matchPattern name with
  | none => ParseOutcome.noMatch
  | some groups =>
    let year := intVal (groups.getD 0 [])
    let month := intVal (groups.getD 1 [])
    let day := intVal (groups.getD 2 [])
    let extension := pyExtension name
    if hasSubstr name ['W', 'A'] then
      ParseOutcome.record ⟨year, month, day, intVal (groups.getD 4 []), 0, 0, extension⟩
    else if groups.length == 6 && hasSubstr name ['V', 'I', 'D'] then
      match intTag (groups.getD 3 []) with
      | some h =>
        ParseOutcome.record ⟨year, month, day, h,
          intVal ((groups.getD 4 []).take 2), intVal ((groups.getD 4 []).drop 2), extension⟩
      | none => ParseOutcome.raises
    else
      ParseOutcome.record ⟨year, month, day, intVal (groups.getD 3 []),
        intVal (groups.getD 4 []), intVal (groups.getD 5 []), extension⟩

/-- Fuel-driven decimal digit expansion; with fuel at least the number the
fuel never runs out, and the fuel-zero fallback agrees on the one value that
can reach it. -/
def natDigitsF : Nat → Nat → List Nat
  | 0, n => [n]
  | fuel + 1, n => if n < 10 then [n] else natDigitsF fuel (n / 10) ++ [n % 10]

/-- Decimal digits of a natural number, most significant first. -/
def natDigits (n : Nat) : List Nat := natDigitsF (n + 1) n

/-- Zero-padded decimal rendering to a minimum width, as the format specifier
0wd of an f-string: digits are never truncated, shorter numbers are padded
with leading zeros. -/
def zpadC (w n : Nat) : List Char :=
  (List.replicate (w - (natDigits n).length) 0 ++ natDigits n).map Nat.digitChar

/-- Unpadded decimal rendering, as str(i) inside an f-string. -/
def natToChars (n : Nat) : List Char :=
  (natDigits n).map Nat.digitChar

/-- Value of a most-significant-first digit list. -/
def valN (ds : List Nat) : Nat :=
  ds.foldl (fun a d => a * 10 + d) 0

/-- The canonical filename built by get_filename_format; the constant
directory prefix of the returned path is dropped (see the header). -/
def get_filename_format (m : FileMetaData) : List Char :=
  zpadC 4 m.year ++ '-' :: (zpadC 2 m.month ++ '-' :: (zpadC 2 m.day ++
    '_' :: (zpadC 2 m.hour ++ '-' :: (zpadC 2 m.minute ++ '-' ::
      (zpadC 2 m.second ++ '.' :: m.extension)))))

/-- The part of the canonical filename before its extension dot. -/
def canonStem (m : FileMetaData) : List Char :=
  zpadC 4 m.year ++ '-' :: (zpadC 2 m.month ++ '-' :: (zpadC 2 m.day ++
    '_' :: (zpadC 2 m.hour ++ '-' :: (zpadC 2 m.minute ++ '-' ::
      zpadC 2 m.second))))

/-- The field ranges of the NormalizedTimestamp data model of the spec. -/
def InRange (m : FileMetaData) : Prop :=
  1 ≤ m.year ∧ m.year ≤ 9999 ∧ 1 ≤ m.month ∧ m.month ≤ 12 ∧
    1 ≤ m.day ∧ m.day ≤ 31 ∧ m.hour ≤ 23 ∧ m.minute ≤ 59 ∧ m.second ≤ 59

instance (m : FileMetaData) : Decidable (InRange m) := by
  unfold InRange; infer_instance

/-- The i-th probe name built inside get_unique_filepath: the stem of the
canonical name, an underscore, the decimal rendering of i, and the suffix of
the canonical name. -/
def candidate (m : FileMetaData) (i : Nat) : List Char :=
  let base := get_filename_format m
  pyStem base ++ '_' :: (natToChars i ++ pySuffixFull base)

/-- Outcome of the planner: a unique path, or the exception raised when no
probe is free (the UniquenessExhausted error of the spec). -/
inductive PlanResult where
  | ok (p : List Char)
  | uniquenessExhausted
deriving DecidableEq

/-- The planner get_unique_filepath of the source: probe the suffixed names
for i from 1 to 99 in order against the directory listing fs and return the
first that does not exist; raise when all ninety-nine probes exist. -/
def get_unique_filepath (fs : List (List Char)) (m : FileMetaData) :
    PlanResult :=
  match (List.range' 1 99).findSome?
      (fun i => if fs.contains (candidate m i) then none else some (candidate m i)) with
  | some p => PlanResult.ok p
  | none => PlanResult.uniquenessExhausted

/-- Result of the batch loop: the renames performed in order and the process
exit code. -/
structure BatchResult where
  renames : List (List Char × List Char)
  exitCode : Nat
deriving DecidableEq

/-- The batch loop rename_files of the source in batch mode (rename and yes
flags set): process the directory entries in order against the evolving
directory listing fs; skip entries that do not parse, plan and perform a
rename for entries that do, and stop with exit code 1 at the first exception,
whether the ValueError raised inside parse_filename or the planner exhaustion,
since the single try/except around the loop catches it and returns 1. -/
def rename_files : List (List Char) → List (List Char) → BatchResult
  | [], _ => ⟨[], 0⟩
  | e :: rest, fs =>
    match parse_filename e with
    | ParseOutcome.noMatch => rename_files rest fs
    | ParseOutcome.raises => ⟨[], 1⟩
    | ParseOutcome.record m =>
      match get_unique_filepath fs m with
      | PlanResult.uniquenessExhausted => ⟨[], 1⟩
      | PlanResult.ok newp =>
        let r := rename_files rest (newp :: fs.erase e)
        ⟨(e, newp) :: r.renames, r.exitCode⟩

/-- Modelled from the claim wording for the extension refinement: the
substring of the name after its final dot, none when the name has no dot. -/
def specExtension (name : List Char) : List Char :=
  (afterLastDot name).getD []

/- Combinator lemmas. -/

theorem chomp_eq_some {p : Char → Bool} :
    ∀ {n : Nat} {s g r : List Char}, chomp p n s = some (g, r) →
      s = g ++ r ∧ g.length = n ∧ g.all p = true := by
  intro n
  induction n with
  | zero =>
    intro s g r h
    simp only [chomp] at h
    cases h.symm
    simp_all
  | succ n ih =>
    intro s g r h
    cases s with
    | nil => simp [chomp] at h
    | cons c s =>
      simp only [chomp] at h
      by_cases hc : p c
      · simp only [hc, if_pos] at h
        cases hcr : chomp p n s with
        | none => rw [hcr] at h; exact absurd h (by simp)
        | some gr =>
          obtain ⟨g0, r0⟩ := gr
          rw [hcr] at h
          obtain ⟨hs, hl, ha⟩ := ih hcr
          cases h
          refine ⟨by simp [hs], by simp [hl], ?_⟩
          simp [List.all_cons, hc, ha]
      · simp [hc] at h

theorem chomp_exact {p : Char → Bool} :
    ∀ {g : List Char} {n : Nat} (r : List Char), g.length = n → g.all p = true →
      chomp p n (g ++ r) = some (g, r) := by
  intro g
  induction g with
  | nil => intro n r hl _; cases hl; simp [chomp]
  | cons c g ih =>
    intro n r hl ha
    cases hl
    simp only [List.all_cons, Bool.and_eq_true] at ha
    simp [chomp, ha.1, ih r rfl ha.2]

theorem chomp_cons_neg {p : Char → Bool} {n : Nat} {c : Char} {s : List Char}
    (h : p c = false) : chomp p (n + 1) (c :: s) = none := by
  simp [chomp, h]

theorem lit_eq_some {c : Char} {s r : List Char} (h : lit c s = some r) :
    s = c :: r := by
  cases s with
  | nil => simp [lit] at h
  | cons x s =>
    simp only [lit] at h
    by_cases hx : x = c
    · cases hx; simp_all
    · simp [hx] at h

theorem lit_cons (c : Char) (r : List Char) : lit c (c :: r) = some r := by
  simp [lit]

theorem lit_cons_neg {c x : Char} {s : List Char} (h : x ≠ c) :
    lit c (x :: s) = none := by
  simp [lit, h]

theorem litStr_eq_some :
    ∀ {cs s r : List Char}, litStr cs s = some r → s = cs ++ r := by
  intro cs
  induction cs with
  | nil => intro s r h; simp only [litStr] at h; cases h; rfl
  | cons c cs ih =>
    intro s r h
    cases s with
    | nil => simp [litStr] at h
    | cons x s =>
      simp only [litStr] at h
      by_cases hx : x = c
      · cases hx
        rw [if_pos rfl] at h
        simpa using ih h
      · simp [hx] at h

theorem litStr_exact : ∀ (cs r : List Char), litStr cs (cs ++ r) = some r := by
  intro cs
  induction cs with
  | nil => intro r; simp [litStr]
  | cons c cs ih => intro r; simp [litStr, ih]

theorem takeWhile_all_true (p : Char → Bool) :
    ∀ l : List Char, (l.takeWhile p).all p = true := by
  intro l
  induction l with
  | nil => simp
  | cons a l ih =>
    rw [List.takeWhile_cons]
    by_cases hp : p a
    · simp [hp, ih]
    · simp [hp]

theorem dropWhile_head_neg (p : Char → Bool) :
    ∀ (l : List Char) (c : Char) (r : List Char), l.dropWhile p = c :: r →
      p c = false := by
  intro l
  induction l with
  | nil => intro c r h; simp at h
  | cons a l ih =>
    intro c r h
    rw [List.dropWhile_cons] at h
    by_cases hp : p a
    · simp only [hp, if_pos] at h; exact ih c r h
    · simp only [hp, if_neg] at h
      cases h
      simpa using hp

theorem many1_eq_some {p : Char → Bool} {s g r : List Char}
    (h : many1 p s = some (g, r)) :
    s = g ++ r ∧ g ≠ [] ∧ g.all p = true ∧ ∀ c r2, r = c :: r2 → p c = false := by
  unfold many1 at h
  cases htw : s.takeWhile p with
  | nil => rw [htw] at h; simp at h
  | cons a l =>
    rw [htw] at h
    cases h
    refine ⟨?_, by simp, ?_, ?_⟩
    · rw [← htw, List.takeWhile_append_dropWhile]
    · rw [← htw]; exact takeWhile_all_true p s
    · intro c r2 hr; exact dropWhile_head_neg p s c r2 hr

theorem takeWhile_of_append {p : Char → Bool} :
    ∀ {g r : List Char}, g.all p = true → (∀ c r2, r = c :: r2 → p c = false) →
      (g ++ r).takeWhile p = g ∧ (g ++ r).dropWhile p = r := by
  intro g
  induction g with
  | nil =>
    intro r _ hr
    cases r with
    | nil => simp
    | cons c r2 => simp [List.takeWhile_cons, List.dropWhile_cons, hr c r2 rfl]
  | cons a g ih =>
    intro r ha hr
    simp only [List.all_cons, Bool.and_eq_true] at ha
    have := ih ha.2 hr
    simp [List.takeWhile_cons, List.dropWhile_cons, ha.1, this.1, this.2]

theorem many1_exact {p : Char → Bool} {g : List Char} (r : List Char)
    (hne : g ≠ []) (ha : g.all p = true)
    (hr : ∀ c r2, r = c :: r2 → p c = false) :
    many1 p (g ++ r) = some (g, r) := by
  obtain ⟨htw, hdw⟩ := takeWhile_of_append ha hr
  unfold many1
  rw [htw, hdw]
  cases g with
  | nil => exact absurd rfl hne
  | cons a g => rfl

/- Runner step lemmas. -/

theorem run_cls_step {p : Char → Bool} {n : Nat} {ts : List Tok}
    {g : List Char} (r : List Char) (hl : g.length = n) (ha : g.all p = true) :
    run (Tok.cls p n :: ts) (g ++ r) = (run ts r).map (fun gs => g :: gs) := by
  simp [run, chomp_exact r hl ha]

theorem run_cls_neg {p : Char → Bool} {n : Nat} {ts : List Tok} {c : Char}
    {s : List Char} (h : p c = false) :
    run (Tok.cls p (n + 1) :: ts) (c :: s) = none := by
  simp [run, chomp_cons_neg h]

theorem run_sym_step {c : Char} {ts : List Tok} (r : List Char) :
    run (Tok.sym c :: ts) (c :: r) = run ts r := by
  simp [run, lit_cons]

theorem run_sym_neg {c x : Char} {ts : List Tok} {s : List Char} (h : x ≠ c) :
    run (Tok.sym c :: ts) (x :: s) = none := by
  simp [run, lit_cons_neg h]

theorem run_str_step {cs : List Char} {ts : List Tok} (r : List Char) :
    run (Tok.str cs :: ts) (cs ++ r) = run ts r := by
  simp [run, litStr_exact]

theorem run_str_neg {c x : Char} {cs : List Char} {ts : List Tok}
    {s : List Char} (h : x ≠ c) :
    run (Tok.str (c :: cs) :: ts) (x :: s) = none := by
  simp [run, litStr, h]

theorem run_plus_step {p : Char → Bool} {g : List Char} {ts : List Tok}
    (r : List Char) (hne : g ≠ []) (ha : g.all p = true)
    (hr : ∀ c r2, r = c :: r2 → p c = false) :
    run (Tok.plus p :: ts) (g ++ r) = (run ts r).map (fun gs => g :: gs) := by
  simp [run, many1_exact r hne ha hr]

/- Runner and shape. -/

theorem run_shape :
    ∀ {ts : List Tok} {s : List Char} {gs : List (List Char)},
      run ts s = some gs → Shaped ts gs s := by
  intro ts
  induction ts with
  | nil =>
    intro s gs h
    simp only [run] at h
    cases h
    exact Shaped.nil s
  | cons t ts ih =>
    intro s gs h
    cases t with
    | cls p n =>
      simp only [run] at h
      cases hc : chomp p n s with
      | none => rw [hc] at h; simp at h
      | some gr =>
        obtain ⟨g, r⟩ := gr
        rw [hc] at h
        rw [Option.map_eq_some'] at h
        obtain ⟨gs0, hrun, hgs⟩ := h
        obtain ⟨hs, hl, ha⟩ := chomp_eq_some hc
        rw [hs, ← hgs]
        exact Shaped.cls hl ha (ih hrun)
    | sym c =>
      simp only [run] at h
      cases hc : lit c s with
      | none => rw [hc] at h; simp at h
      | some r =>
        rw [hc] at h
        rw [lit_eq_some hc]
        exact Shaped.sym (ih h)
    | str cs =>
      simp only [run] at h
      cases hc : litStr cs s with
      | none => rw [hc] at h; simp at h
      | some r =>
        rw [hc] at h
        rw [litStr_eq_some hc]
        exact Shaped.str (ih h)
    | plus p =>
      simp only [run] at h
      cases hc : many1 p s with
      | none => rw [hc] at h; simp at h
      | some gr =>
        obtain ⟨g, r⟩ := gr
        rw [hc] at h
        rw [Option.map_eq_some'] at h
        obtain ⟨gs0, hrun, hgs⟩ := h
        obtain ⟨hs, hne, ha, hmax⟩ := many1_eq_some hc
        rw [hs, ← hgs]
        exact Shaped.plus hne ha hmax (ih hrun)

theorem shape_run :
    ∀ {ts : List Tok} {gs : List (List Char)} {s : List Char},
      Shaped ts gs s → run ts s = some gs := by
  intro ts gs s h
  induction h with
  | nil s => rfl
  | cls hl ha _ ih => rw [run_cls_step _ hl ha, ih]; rfl
  | sym _ ih => rw [run_sym_step, ih]
  | str _ ih => rw [run_str_step, ih]
  | plus hne ha hmax _ ih => rw [run_plus_step _ hne ha hmax, ih]; rfl

theorem takeWhile_ne_nil_of_head {p : Char → Bool} {a : Char} {l : List Char}
    (h : p a = true) : (a :: l).takeWhile p ≠ [] := by
  simp [List.takeWhile_cons, h]

theorem shaped_extend :
    ∀ {ts : List Tok} {gs : List (List Char)} {s : List Char},
      Shaped ts gs s → goodToks ts = true → ∀ t : List Char,
        ∃ gs2, Shaped ts gs2 (s ++ t) := by
  intro ts gs s h
  induction h with
  | nil s => intro _ t; exact ⟨[], Shaped.nil _⟩
  | @cls p n ts gs g r hl ha _ ih =>
    intro hg t
    have hg2 : goodToks ts = true := by simpa [goodToks] using hg
    obtain ⟨gs2, h2⟩ := ih hg2 t
    exact ⟨g :: gs2, by rw [List.append_assoc]; exact Shaped.cls hl ha h2⟩
  | @sym c ts gs r _ ih =>
    intro hg t
    have hg2 : goodToks ts = true := by simpa [goodToks] using hg
    obtain ⟨gs2, h2⟩ := ih hg2 t
    exact ⟨gs2, by rw [List.cons_append]; exact Shaped.sym h2⟩
  | @str cs ts gs r _ ih =>
    intro hg t
    have hg2 : goodToks ts = true := by simpa [goodToks] using hg
    obtain ⟨gs2, h2⟩ := ih hg2 t
    exact ⟨gs2, by rw [List.append_assoc]; exact Shaped.str h2⟩
  | @plus p ts gs g r hne ha hmax hsub ih =>
    intro hg t
    match ts, hsub with
    | [], hsub =>
      cases hsub with
      | nil =>
        refine ⟨[(g ++ r ++ t).takeWhile p], ?_⟩
        have hsplit := List.takeWhile_append_dropWhile p (g ++ r ++ t)
        have hstep : Shaped [Tok.plus p] [(g ++ r ++ t).takeWhile p]
            ((g ++ r ++ t).takeWhile p ++ (g ++ r ++ t).dropWhile p) :=
          Shaped.plus
            (by
              cases g with
              | nil => exact absurd rfl hne
              | cons a g0 =>
                have hpa : p a = true := by
                  have := ha
                  simp only [List.all_cons, Bool.and_eq_true] at this
                  exact this.1
                simpa using @takeWhile_ne_nil_of_head p a (g0 ++ r ++ t) hpa)
            (takeWhile_all_true p _)
            (fun c r2 hdw => dropWhile_head_neg p _ c r2 hdw)
            (Shaped.nil _)
        rw [hsplit] at hstep
        rw [List.append_assoc]
        rw [← List.append_assoc]
        exact hstep
    | Tok.sym c :: ts2, hsub =>
      have hpc : p c = false := by
        simp only [goodToks, Bool.and_eq_true] at hg
        simpa using hg.1
      have hg2 : goodToks (Tok.sym c :: ts2) = true := by
        simp only [goodToks, Bool.and_eq_true] at hg
        simpa [goodToks] using hg.2
      cases hsub with
      | @sym _ _ _ r1 hsub2 =>
        obtain ⟨gs2, h2⟩ := ih hg2 t
        refine ⟨g :: gs2, ?_⟩
        rw [List.append_assoc]
        exact Shaped.plus hne ha
          (fun c2 r2 hr => by
            rw [List.cons_append] at hr
            cases hr
            exact hpc)
          h2

theorem run_extend {ts : List Tok} {s : List Char} {gs : List (List Char)}
    (hg : goodToks ts = true) (h : run ts s = some gs) (t : List Char) :
    ∃ gs2, run ts (s ++ t) = some gs2 := by
  obtain ⟨gs2, h2⟩ := shaped_extend (run_shape h) hg t
  exact ⟨gs2, shape_run h2⟩

/- Choice lemmas for the nine-alternative pattern. -/

theorem orE_cases {a b : Option (List (List Char))} {gs : List (List Char)}
    (h : orE a b = some gs) : a = some gs ∨ b = some gs := by
  cases a with
  | some x => exact Or.inl h
  | none => exact Or.inr h

theorem matchPattern_cases {s : List Char} {gs : List (List Char)}
    (h : matchPattern s = some gs) :
    run toks1 s = some gs ∨ run toks2 s = some gs ∨ run toks3 s = some gs ∨
    run toks4 s = some gs ∨ run toks5 s = some gs ∨ run toks6 s = some gs ∨
    run toks7 s = some gs ∨ run toks8 s = some gs ∨ run toks9 s = some gs := by
  unfold matchPattern at h
  rcases orE_cases h with h | h
  · exact Or.inl h
  rcases orE_cases h with h | h
  · exact Or.inr (Or.inl h)
  rcases orE_cases h with h | h
  · exact Or.inr (Or.inr (Or.inl h))
  rcases orE_cases h with h | h
  · exact Or.inr (Or.inr (Or.inr (Or.inl h)))
  rcases orE_cases h with h | h
  · exact Or.inr (Or.inr (Or.inr (Or.inr (Or.inl h))))
  rcases orE_cases h with h | h
  · exact Or.inr (Or.inr (Or.inr (Or.inr (Or.inr (Or.inl h)))))
  rcases orE_cases h with h | h
  · exact Or.inr (Or.inr (Or.inr (Or.inr (Or.inr (Or.inr (Or.inl h))))))
  rcases orE_cases h with h | h
  · exact Or.inr (Or.inr (Or.inr (Or.inr (Or.inr (Or.inr (Or.inr (Or.inl h)))))))
  · exact Or.inr (Or.inr (Or.inr (Or.inr (Or.inr (Or.inr (Or.inr (Or.inr h)))))))

theorem matchPattern_exists {u : List Char} {gs : List (List Char)}
    (h : run toks1 u = some gs ∨ run toks2 u = some gs ∨ run toks3 u = some gs ∨
      run toks4 u = some gs ∨ run toks5 u = some gs ∨ run toks6 u = some gs ∨
      run toks7 u = some gs ∨ run toks8 u = some gs ∨ run toks9 u = some gs) :
    ∃ gs2, matchPattern u = some gs2 := by
  unfold matchPattern
  cases h1 : run toks1 u with
  | some g => exact ⟨g, rfl⟩
  | none =>
  simp only [orE]
  cases h2 : run toks2 u with
  | some g => exact ⟨g, rfl⟩
  | none =>
  simp only [orE]
  cases h3 : run toks3 u with
  | some g => exact ⟨g, rfl⟩
  | none =>
  simp only [orE]
  cases h4 : run toks4 u with
  | some g => exact ⟨g, rfl⟩
  | none =>
  simp only [orE]
  cases h5 : run toks5 u with
  | some g => exact ⟨g, rfl⟩
  | none =>
  simp only [orE]
  cases h6 : run toks6 u with
  | some g => exact ⟨g, rfl⟩
  | none =>
  simp only [orE]
  cases h7 : run toks7 u with
  | some g => exact ⟨g, rfl⟩
  | none =>
  simp only [orE]
  cases h8 : run toks8 u with
  | some g => exact ⟨g, rfl⟩
  | none =>
  simp only [orE]
  cases h9 : run toks9 u with
  | some g => exact ⟨g, rfl⟩
  | none =>
  simp_all

theorem shaped_head_cls {p : Char → Bool} {n : Nat} {ts : List Tok}
    {gs : List (List Char)} {s : List Char}
    (h : Shaped (Tok.cls p n :: ts) gs s) (hn : n ≠ 0) :
    ∃ c s0, s = c :: s0 ∧ p c = true := by
  cases h with
  | @cls _ _ _ _ g r hl ha _ =>
    cases g with
    | nil => exact absurd hl.symm hn
    | cons c g0 =>
      simp only [List.all_cons, Bool.and_eq_true] at ha
      exact ⟨c, g0 ++ r, by simp, ha.1⟩

theorem shaped_head_str {c : Char} {cs : List Char} {ts : List Tok}
    {gs : List (List Char)} {s : List Char}
    (h : Shaped (Tok.str (c :: cs) :: ts) gs s) :
    ∃ s0, s = c :: s0 := by
  cases h with
  | @str _ _ _ r _ => exact ⟨cs ++ r, by simp⟩

theorem shaped_length :
    ∀ {ts : List Tok} {gs : List (List Char)} {s : List Char},
      Shaped ts gs s → gs.length = capCount ts := by
  intro ts gs s h
  induction h with
  | nil s => rfl
  | cls _ _ _ ih => simp [capCount, ih]
  | sym _ ih => simp [capCount, ih]
  | str _ ih => simp [capCount, ih]
  | plus _ _ _ _ ih => simp [capCount, ih]

/- Heads of matched names. -/

theorem toks1_eq : toks1 = Tok.cls isDig 4 :: (toks1.drop 1) := rfl

theorem match_head_not_dot {u : List Char} {gs : List (List Char)}
    (h : matchPattern u = some gs) : ∀ s2, u = '.' :: s2 → False := by
  intro s2 hu
  have hdig : isDig '.' = false := by decide
  rcases matchPattern_cases h with h | h | h | h | h | h | h | h | h
  · have hs := run_shape h
    rw [show toks1 = Tok.cls isDig 4 :: toks1.drop 1 from rfl] at hs
    obtain ⟨c, s0, he, hd⟩ := shaped_head_cls hs (by decide)
    rw [hu] at he
    cases he
    rw [hdig] at hd
    cases hd
  · have hs := run_shape h
    rw [show toks2 = Tok.str ('I' :: ['M', 'G', '_']) :: toks2.drop 1 from rfl] at hs
    obtain ⟨s0, he⟩ := shaped_head_str hs
    rw [hu] at he
    cases he
  · have hs := run_shape h
    rw [show toks3 = Tok.str ('P' :: ['X', 'L', '_']) :: toks3.drop 1 from rfl] at hs
    obtain ⟨s0, he⟩ := shaped_head_str hs
    rw [hu] at he
    cases he
  · have hs := run_shape h
    rw [show toks4 = Tok.str ('S' :: ['c', 'r', 'e', 'e', 'n', 's', 'h', 'o', 't',
      ' ', 'f', 'r', 'o', 'm', ' ']) :: toks4.drop 1 from rfl] at hs
    obtain ⟨s0, he⟩ := shaped_head_str hs
    rw [hu] at he
    cases he
  · have hs := run_shape h
    rw [show toks5 = Tok.str ('V' :: ['I', 'D', '_']) :: toks5.drop 1 from rfl] at hs
    obtain ⟨s0, he⟩ := shaped_head_str hs
    rw [hu] at he
    cases he
  · have hs := run_shape h
    rw [show toks6 = Tok.str ('P' :: ['X', 'L', '_']) :: toks6.drop 1 from rfl] at hs
    obtain ⟨s0, he⟩ := shaped_head_str hs
    rw [hu] at he
    cases he
  · have hs := run_shape h
    rw [show toks7 = Tok.str ('I' :: ['M', 'G', '_']) :: toks7.drop 1 from rfl] at hs
    obtain ⟨s0, he⟩ := shaped_head_str hs
    rw [hu] at he
    cases he
  · have hs := run_shape h
    rw [show toks8 = Tok.str ('I' :: ['M', 'G', '_']) :: toks8.drop 1 from rfl] at hs
    obtain ⟨s0, he⟩ := shaped_head_str hs
    rw [hu] at he
    cases he
  · have hs := run_shape h
    rw [show toks9 = Tok.cls isDig 4 :: toks9.drop 1 from rfl] at hs
    obtain ⟨c, s0, he, hd⟩ := shaped_head_cls hs (by decide)
    rw [hu] at he
    cases he
    rw [hdig] at hd
    cases hd

/- The extension field of every parsed record. -/

theorem parse_extension {name : List Char} {m : FileMetaData}
    (h : parse_filename name = ParseOutcome.record m) :
    m.extension = pyExtension name := by
  unfold parse_filename at h
  cases hm : matchPattern name with
  | none =>
    rw [hm] at h
    cases h
  | some gs =>
    rw [hm] at h
    dsimp only at h
    by_cases hwa : hasSubstr name ['W', 'A'] = true
    · rw [if_pos hwa] at h
      cases h
      rfl
    · rw [if_neg hwa] at h
      by_cases hv : (gs.length == 6 && hasSubstr name ['V', 'I', 'D']) = true
      · rw [if_pos hv] at h
        cases hi : intTag (gs.getD 3 []) with
        | none => rw [hi] at h; cases h
        | some hr =>
          rw [hi] at h
          cases h
          rfl
      · rw [if_neg hv] at h
        cases h
        rfl

theorem afterLastDot_cons (c : Char) (s : List Char) :
    afterLastDot (c :: s) =
      match afterLastDot s with
      | some t => some t
      | none => if c = '.' then some s else none := rfl

theorem pyExtension_eq_spec {name : List Char}
    (h : ∀ s2, name = '.' :: s2 → False) :
    pyExtension name = specExtension name := by
  cases name with
  | nil => rfl
  | cons c s =>
    have hc : c ≠ '.' := fun he => h s (by rw [he])
    simp only [pyExtension, specExtension, afterLastDot_cons]
    cases hd : afterLastDot s with
    | some t =>
      cases t with
      | nil => simp
      | cons a t2 => simp
    | none => simp [hc]

/-- C8: for every filename that some grammar matches, the extension field of
the record parse returns equals the substring of the filename after its final
dot, as the claim words it, even for stems with several dots; the pathlib
suffix computation of the source and the claim wording agree on every
matchable name because a matched name never starts with a dot. -/
theorem extension_is_text_after_last_dot (name : List Char) (m : FileMetaData)
    (h : parse_filename name = ParseOutcome.record m) :
    m.extension = specExtension name := by
  have h1 := parse_extension h
  have hm : ∃ gs, matchPattern name = some gs := by
    unfold parse_filename at h
    cases hm : matchPattern name with
    | none => rw [hm] at h; cases h
    | some gs => exact ⟨gs, rfl⟩
  obtain ⟨gs, hm⟩ := hm
  rw [h1, pyExtension_eq_spec (match_head_not_dot hm)]

/-- Witness for C8 at a concrete stem with several dots: the parsed extension
of the name 2021-01-01 01.01.01.jpg.bak is the text after its last dot. -/
theorem extension_is_text_after_last_dot_witness :
    (⟨2021, 1, 1, 1, 1, 1, "bak".data⟩ : FileMetaData).extension =
      specExtension "2021-01-01 01.01.01.jpg.bak".data :=
  extension_is_text_after_last_dot "2021-01-01 01.01.01.jpg.bak".data
    ⟨2021, 1, 1, 1, 1, 1, "bak".data⟩ (by decide)

/- Substring lemmas for the WA and VID tests. -/

theorem isPrefixOf_nil {p : List Char} (h : p.isPrefixOf [] = true) : p = [] := by
  cases p with
  | nil => rfl
  | cons c cs => simp [List.isPrefixOf] at h

theorem isPrefixOf_append_right {p : List Char} :
    ∀ {s : List Char} (t : List Char), p.isPrefixOf s = true →
      p.isPrefixOf (s ++ t) = true := by
  induction p with
  | nil => intro s t _; simp [List.isPrefixOf]
  | cons c p ih =>
    intro s t h
    cases s with
    | nil => simp [List.isPrefixOf] at h
    | cons x s0 =>
      simp only [List.isPrefixOf, Bool.and_eq_true] at h
      simp only [List.cons_append, List.isPrefixOf, Bool.and_eq_true]
      exact ⟨h.1, ih t h.2⟩

theorem isPrefixOf_self_append (p t : List Char) : p.isPrefixOf (p ++ t) = true := by
  induction p with
  | nil => simp [List.isPrefixOf]
  | cons c p ih => simp [List.isPrefixOf, ih]

theorem hasSubstr_cons (c : Char) (s pat : List Char) :
    hasSubstr (c :: s) pat = (pat.isPrefixOf (c :: s) || hasSubstr s pat) := rfl

theorem hasSubstr_nil_pat : ∀ t : List Char, hasSubstr t [] = true := by
  intro t
  cases t with
  | nil => rfl
  | cons x t0 => rw [hasSubstr_cons]; simp [List.isPrefixOf]

theorem hasSubstr_append_right {s pat : List Char} (t : List Char)
    (h : hasSubstr s pat = true) : hasSubstr (s ++ t) pat = true := by
  induction s with
  | nil =>
    unfold hasSubstr at h
    simp only [Bool.or_false] at h
    rw [isPrefixOf_nil h, List.nil_append]
    exact hasSubstr_nil_pat t
  | cons x s0 ih =>
    rw [hasSubstr_cons] at h
    rw [List.cons_append, hasSubstr_cons]
    rcases Bool.or_eq_true_iff.mp h with h1 | h2
    · have := isPrefixOf_append_right t h1
      rw [List.cons_append] at this
      rw [this]
      simp
    · rw [ih h2]
      simp

theorem hasSubstr_mid (x pat y : List Char) :
    hasSubstr (x ++ (pat ++ y)) pat = true := by
  induction x with
  | nil =>
    rw [List.nil_append]
    cases pat with
    | nil =>
      rw [List.nil_append]
      exact hasSubstr_nil_pat y
    | cons c p0 =>
      have hpre := isPrefixOf_self_append (c :: p0) y
      rw [List.cons_append] at hpre
      rw [List.cons_append, hasSubstr_cons, hpre]
      simp
  | cons a x0 ih =>
    rw [List.cons_append, hasSubstr_cons, ih]
    simp

/- Decimal digit lemmas for the formatter. -/

theorem lt_ten_pow (x : Nat) : x < 10 ^ x :=
  Nat.lt_of_lt_of_le (Nat.lt_two_pow x) (Nat.pow_le_pow_left (by decide) x)

theorem lt_ten_pow_succ (x : Nat) : x < 10 ^ (x + 1) :=
  Nat.lt_of_lt_of_le (lt_ten_pow x) (Nat.pow_le_pow_right (by decide) (Nat.le_succ x))

theorem natDigitsF_stable :
    ∀ (f1 : Nat) {f2 n : Nat}, n < 10 ^ f1 → n < 10 ^ f2 →
      natDigitsF f1 n = natDigitsF f2 n := by
  intro f1
  induction f1 with
  | zero =>
    intro f2 n h1 _
    have hn : n = 0 := by simpa using h1
    subst hn
    cases f2 with
    | zero => rfl
    | succ f2 => simp [natDigitsF]
  | succ f1 ih =>
    intro f2 n h1 h2
    by_cases hn : n < 10
    · cases f2 with
      | zero =>
        have : n = 0 := by simpa using h2
        subst this
        simp [natDigitsF]
      | succ f2 => simp [natDigitsF, hn]
    · cases f2 with
      | zero =>
        have : n = 0 := by simpa using h2
        omega
      | succ f2 =>
        simp only [natDigitsF, hn, if_neg, if_false]
        have hd1 : n / 10 < 10 ^ f1 := by
          rw [Nat.div_lt_iff_lt_mul (by decide : 0 < 10)]
          calc n < 10 ^ (f1 + 1) := h1
          _ = 10 ^ f1 * 10 := by ring
        have hd2 : n / 10 < 10 ^ f2 := by
          rw [Nat.div_lt_iff_lt_mul (by decide : 0 < 10)]
          calc n < 10 ^ (f2 + 1) := h2
          _ = 10 ^ f2 * 10 := by ring
        rw [ih hd1 hd2]

theorem natDigits_eq (n : Nat) :
    natDigits n = if n < 10 then [n] else natDigits (n / 10) ++ [n % 10] := by
  unfold natDigits
  show (if n < 10 then [n] else natDigitsF n (n / 10) ++ [n % 10]) = _
  by_cases hn : n < 10
  · simp [hn]
  · rw [if_neg hn, if_neg hn]
    have hd1 : n / 10 < 10 ^ n := by
      rw [Nat.div_lt_iff_lt_mul (by decide : 0 < 10)]
      have h1 : n < 10 ^ n := lt_ten_pow n
      have h2 : (10 : Nat) ^ n * 1 ≤ 10 ^ n * 10 :=
        Nat.mul_le_mul_left _ (by decide)
      omega
    rw [@natDigitsF_stable n (n / 10 + 1) (n / 10) hd1 (lt_ten_pow_succ (n / 10))]

theorem natDigits_ne_nil (n : Nat) : natDigits n ≠ [] := by
  rw [natDigits_eq]
  split
  · simp
  · simp

theorem natDigits_lt (n : Nat) : ∀ d ∈ natDigits n, d < 10 := by
  induction n using Nat.strong_induction_on with
  | _ n ih =>
    rw [natDigits_eq]
    split
    · intro d hd
      simp only [List.mem_singleton] at hd
      omega
    · intro d hd
      rw [List.mem_append] at hd
      rcases hd with hd | hd
      · exact ih (n / 10) (Nat.div_lt_self (by omega) (by decide)) d hd
      · simp only [List.mem_singleton] at hd
        subst hd
        exact Nat.mod_lt n (by decide)

theorem valN_append_singleton (l : List Nat) (d : Nat) :
    valN (l ++ [d]) = valN l * 10 + d := by
  simp [valN, List.foldl_append]

theorem valN_natDigits (n : Nat) : valN (natDigits n) = n := by
  induction n using Nat.strong_induction_on with
  | _ n ih =>
    rw [natDigits_eq]
    split
    · simp [valN]
    · rw [valN_append_singleton, ih (n / 10) (Nat.div_lt_self (by omega) (by decide))]
      omega

theorem valN_replicate_zero (k : Nat) (l : List Nat) :
    valN (List.replicate k 0 ++ l) = valN l := by
  induction k with
  | zero => simp
  | succ k ih =>
    rw [List.replicate_succ, List.cons_append]
    show List.foldl _ (0 * 10 + 0) _ = _
    simpa [valN] using ih

theorem digitChar_sub (d : Nat) (h : d < 10) : (Nat.digitChar d).toNat - 48 = d := by
  interval_cases d <;> rfl

theorem digitChar_isDigit (d : Nat) (h : d < 10) : (Nat.digitChar d).isDigit = true := by
  interval_cases d <;> rfl

theorem foldl_digitChar_eq {ds : List Nat} (h : ∀ d ∈ ds, d < 10) :
    ∀ a : Nat, ds.foldl (fun x d => x * 10 + ((Nat.digitChar d).toNat - 48)) a =
      ds.foldl (fun x d => x * 10 + d) a := by
  induction ds with
  | nil => intro a; rfl
  | cons d ds ih =>
    intro a
    simp only [List.foldl_cons]
    rw [digitChar_sub d (h d (by simp))]
    exact ih (fun x hx => h x (by simp [hx])) _

theorem intVal_map_digitChar {ds : List Nat} (h : ∀ d ∈ ds, d < 10) :
    intVal (ds.map Nat.digitChar) = valN ds := by
  unfold intVal valN
  rw [List.foldl_map]
  exact foldl_digitChar_eq h 0

theorem intVal_zpadC (w n : Nat) : intVal (zpadC w n) = n := by
  unfold zpadC
  rw [intVal_map_digitChar]
  · rw [valN_replicate_zero, valN_natDigits]
  · intro d hd
    rw [List.mem_append] at hd
    rcases hd with hd | hd
    · rw [List.eq_of_mem_replicate hd]; omega
    · exact natDigits_lt n d hd

theorem intVal_natToChars (n : Nat) : intVal (natToChars n) = n := by
  unfold natToChars
  rw [intVal_map_digitChar (natDigits_lt n), valN_natDigits]

theorem natDigits_len_le : ∀ (w n : Nat), n < 10 ^ (w + 1) →
    (natDigits n).length ≤ w + 1 := by
  intro w
  induction w with
  | zero =>
    intro n h
    rw [natDigits_eq]
    split
    · simp
    · omega
  | succ w ih =>
    intro n h
    rw [natDigits_eq]
    split
    · simp
    · rw [List.length_append]
      have hdiv : n / 10 < 10 ^ (w + 1) := by
        rw [Nat.div_lt_iff_lt_mul (by decide : 0 < 10)]
        calc n < 10 ^ (w + 2) := h
        _ = 10 ^ (w + 1) * 10 := by ring
      have := ih (n / 10) hdiv
      simp only [List.length_singleton]
      omega

theorem zpadC_length {w n : Nat} (h : (natDigits n).length ≤ w) :
    (zpadC w n).length = w := by
  unfold zpadC
  rw [List.length_map, List.length_append, List.length_replicate]
  omega

theorem zpadC_isDigit {w n : Nat} : ∀ c ∈ zpadC w n, c.isDigit = true := by
  intro c hc
  unfold zpadC at hc
  rw [List.mem_map] at hc
  obtain ⟨d, hd, hcd⟩ := hc
  rw [List.mem_append] at hd
  subst hcd
  rcases hd with hd | hd
  · rw [List.eq_of_mem_replicate hd]; rfl
  · exact digitChar_isDigit d (natDigits_lt n d hd)

/- C7: injectivity of the canonical formatter. -/

theorem append_cons_inj {A B X Y : List Char} {c : Char}
    (h : A ++ c :: X = B ++ c :: Y) (hl : A.length = B.length) :
    A = B ∧ X = Y := by
  obtain ⟨h1, h2⟩ := List.append_inj h hl
  exact ⟨h1, by injection h2⟩

theorem zpadC_inj {w a b : Nat} (h : zpadC w a = zpadC w b) : a = b := by
  rw [← intVal_zpadC w a, ← intVal_zpadC w b, h]

/-- C7: the canonical formatter is deterministic, and on the field ranges of
the data model it is injective: two records in range with the same canonical
filename are equal. -/
theorem canonical_format_deterministic_injective :
    (∀ m1 m2 : FileMetaData, m1 = m2 →
      get_filename_format m1 = get_filename_format m2) ∧
    ∀ m1 m2 : FileMetaData, InRange m1 → InRange m2 →
      get_filename_format m1 = get_filename_format m2 → m1 = m2 := by
  constructor
  · intro m1 m2 h
    rw [h]
  · intro m1 m2 h1 h2 heq
    obtain ⟨hy1a, hy1, _, hmo1, _, hd1, hh1, hmi1, hs1⟩ := h1
    obtain ⟨hy2a, hy2, _, hmo2, _, hd2, hh2, hmi2, hs2⟩ := h2
    have len4 : ∀ y : Nat, y ≤ 9999 → (zpadC 4 y).length = 4 := fun y hy =>
      zpadC_length (natDigits_len_le 3 y (by omega))
    have len2 : ∀ x : Nat, x ≤ 99 → (zpadC 2 x).length = 2 := fun x hx =>
      zpadC_length (natDigits_len_le 1 x (by omega))
    unfold get_filename_format at heq
    obtain ⟨e1, heq⟩ := append_cons_inj heq
      (by rw [len4 _ hy1, len4 _ hy2])
    obtain ⟨e2, heq⟩ := append_cons_inj heq
      (by rw [len2 _ (by omega), len2 _ (by omega)])
    obtain ⟨e3, heq⟩ := append_cons_inj heq
      (by rw [len2 _ (by omega), len2 _ (by omega)])
    obtain ⟨e4, heq⟩ := append_cons_inj heq
      (by rw [len2 _ (by omega), len2 _ (by omega)])
    obtain ⟨e5, heq⟩ := append_cons_inj heq
      (by rw [len2 _ (by omega), len2 _ (by omega)])
    obtain ⟨e6, heq⟩ := append_cons_inj heq
      (by rw [len2 _ (by omega), len2 _ (by omega)])
    obtain ⟨m1y, m1mo, m1d, m1h, m1mi, m1s, m1e⟩ := m1
    obtain ⟨m2y, m2mo, m2d, m2h, m2mi, m2s, m2e⟩ := m2
    simp only at e1 e2 e3 e4 e5 e6 heq
    rw [zpadC_inj e1, zpadC_inj e2, zpadC_inj e3, zpadC_inj e4, zpadC_inj e5,
      zpadC_inj e6, heq]

/-- Witness for C7: both parts applied at a concrete in-range record. -/
theorem canonical_format_deterministic_injective_witness :
    get_filename_format ⟨2021, 1, 1, 1, 1, 1, "jpg".data⟩ =
        get_filename_format ⟨2021, 1, 1, 1, 1, 1, "jpg".data⟩ ∧
      (⟨2021, 1, 1, 1, 1, 1, "jpg".data⟩ : FileMetaData) =
        ⟨2021, 1, 1, 1, 1, 1, "jpg".data⟩ :=
  ⟨canonical_format_deterministic_injective.1 _ _ rfl,
   canonical_format_deterministic_injective.2
     ⟨2021, 1, 1, 1, 1, 1, "jpg".data⟩ ⟨2021, 1, 1, 1, 1, 1, "jpg".data⟩
     (by decide) (by decide) rfl⟩

/- Planner lemmas. -/

theorem format_eq (m : FileMetaData) :
    get_filename_format m = canonStem m ++ '.' :: m.extension := by
  simp [get_filename_format, canonStem]

theorem zpadC_ne_nil (w n : Nat) : zpadC w n ≠ [] := by
  unfold zpadC
  simp only [ne_eq, List.map_eq_nil_iff, List.append_eq_nil]
  intro h
  exact natDigits_ne_nil n h.2

theorem canonStem_no_dot (m : FileMetaData) : '.' ∉ canonStem m := by
  intro hmem
  have hz : ∀ w n : Nat, '.' ∉ zpadC w n := by
    intro w n hc
    have := zpadC_isDigit '.' hc
    simp at this
  unfold canonStem at hmem
  simp only [List.mem_append, List.mem_cons] at hmem
  rcases hmem with h | h | h | h | h | h | h | h | h | h | h
  · exact hz _ _ h
  · cases h
  · exact hz _ _ h
  · cases h
  · exact hz _ _ h
  · cases h
  · exact hz _ _ h
  · cases h
  · exact hz _ _ h
  · cases h
  · exact hz _ _ h

theorem afterLastDot_of_no_dot :
    ∀ {l : List Char}, '.' ∉ l → afterLastDot l = none := by
  intro l
  induction l with
  | nil => intro _; rfl
  | cons c s ih =>
    intro h
    rw [afterLastDot_cons, ih (fun hm => h (List.mem_cons_of_mem c hm))]
    have hc : c ≠ '.' := fun he => h (he ▸ List.mem_cons_self c s)
    simp [hc]

theorem afterLastDot_append_dot {b : List Char} (hb : '.' ∉ b) :
    ∀ a : List Char, afterLastDot (a ++ '.' :: b) = some b := by
  intro a
  induction a with
  | nil =>
    rw [List.nil_append, afterLastDot_cons, afterLastDot_of_no_dot hb]
    simp
  | cons x a0 ih =>
    rw [List.cons_append, afterLastDot_cons, ih]

theorem pySuffixFull_format {m : FileMetaData} (hne : m.extension ≠ [])
    (hnd : '.' ∉ m.extension) :
    pySuffixFull (get_filename_format m) = '.' :: m.extension := by
  rw [format_eq]
  cases hs : canonStem m with
  | nil => exact absurd hs (by rw [canonStem]; simp [zpadC_ne_nil 4 m.year])
  | cons c0 cs =>
    rw [List.cons_append]
    show (match afterLastDot (cs ++ '.' :: m.extension) with
      | some t => if t = [] then [] else '.' :: t
      | none => []) = _
    rw [afterLastDot_append_dot hnd]
    simp [hne]

theorem pyStem_format {m : FileMetaData} (hne : m.extension ≠ [])
    (hnd : '.' ∉ m.extension) :
    pyStem (get_filename_format m) = canonStem m := by
  unfold pyStem
  rw [pySuffixFull_format hne hnd, format_eq]
  have hlen : (canonStem m ++ '.' :: m.extension).length -
      ('.' :: m.extension).length = (canonStem m).length := by
    simp [List.length_append]
  rw [hlen, List.take_left]

theorem candidate_eq {m : FileMetaData} (hne : m.extension ≠ [])
    (hnd : '.' ∉ m.extension) (i : Nat) :
    candidate m i = canonStem m ++ '_' :: (natToChars i ++ '.' :: m.extension) := by
  show pyStem (get_filename_format m) ++
    '_' :: (natToChars i ++ pySuffixFull (get_filename_format m)) = _
  rw [pyStem_format hne hnd, pySuffixFull_format hne hnd]

theorem natToChars_ne_nil (n : Nat) : natToChars n ≠ [] := by
  unfold natToChars
  simp only [ne_eq, List.map_eq_nil_iff]
  exact natDigits_ne_nil n

theorem natToChars_inj {i j : Nat} (h : natToChars i = natToChars j) : i = j := by
  rw [← intVal_natToChars i, ← intVal_natToChars j, h]

theorem candidate_inj {m : FileMetaData} (hne : m.extension ≠ [])
    (hnd : '.' ∉ m.extension) {i j : Nat}
    (h : candidate m i = candidate m j) : i = j := by
  rw [candidate_eq hne hnd i, candidate_eq hne hnd j] at h
  have h2 := List.append_cancel_left h
  have h3 : natToChars i ++ '.' :: m.extension =
      natToChars j ++ '.' :: m.extension := by injection h2
  have hlen : (natToChars i).length = (natToChars j).length := by
    have := congrArg List.length h3
    simp only [List.length_append] at this
    omega
  exact natToChars_inj (List.append_inj_left h3 hlen)

theorem candidate_ne_format {m : FileMetaData} (hne : m.extension ≠ [])
    (hnd : '.' ∉ m.extension) (i : Nat) :
    candidate m i ≠ get_filename_format m := by
  intro h
  rw [candidate_eq hne hnd i, format_eq] at h
  have := congrArg List.length h
  simp only [List.length_append, List.length_cons] at this
  have hpos : 0 < (natToChars i).length :=
    List.length_pos.mpr (natToChars_ne_nil i)
  omega

theorem contains_true_of_mem {x : List Char} {fs : List (List Char)}
    (h : x ∈ fs) : fs.contains x = true := by
  show List.elem x fs = true
  rw [List.elem_eq_mem]
  exact decide_eq_true h

theorem contains_false_of_not_mem {x : List Char} {fs : List (List Char)}
    (h : x ∉ fs) : fs.contains x = false := by
  show List.elem x fs = false
  rw [List.elem_eq_mem]
  exact decide_eq_false h

theorem findSome_range' (P : Nat → Bool) (g : Nat → List Char) :
    ∀ (n a k : Nat), k < n → (∀ j, j < k → P (a + j) = true) →
      P (a + k) = false →
      (List.range' a n).findSome?
        (fun i => if P i then none else some (g i)) = some (g (a + k)) := by
  intro n
  induction n with
  | zero => intro a k hk _ _; omega
  | succ n ih =>
    intro a k hk hocc hfree
    rw [show List.range' a (n + 1) = a :: List.range' (a + 1) n from rfl,
      List.findSome?_cons]
    cases k with
    | zero =>
      have hpa : P a = false := by simpa using hfree
      simp [hpa]
    | succ k =>
      have hpa : P a = true := by simpa using hocc 0 (by omega)
      simp only [hpa, if_true]
      have harith : a + 1 + k = a + (k + 1) := by omega
      rw [← harith]
      exact ih (a + 1) k (by omega)
        (fun j hj => by
          have := hocc (j + 1) (by omega)
          rw [show a + (j + 1) = a + 1 + j from by omega] at this
          exact this)
        (by rw [harith]; exact hfree)

/-- C6: collision monotonicity and the ninety-nine probe bound.  For a
directory holding exactly the canonical name and the suffixed variants one
through k, the planner returns variant k plus one; and when variants one
through ninety-nine all exist the planner raises UniquenessExhausted. -/
theorem collision_monotonic_and_bounded (m : FileMetaData)
    (hne : m.extension ≠ []) (hnd : '.' ∉ m.extension) :
    (∀ k : Nat, k < 99 →
      get_unique_filepath
        (get_filename_format m :: (List.range' 1 k).map (candidate m)) m =
        PlanResult.ok (candidate m (k + 1))) ∧
    (∀ fs : List (List Char), (∀ i ∈ List.range' 1 99, candidate m i ∈ fs) →
      get_unique_filepath fs m = PlanResult.uniquenessExhausted) := by
  constructor
  · intro k hk
    have hocc : ∀ j, j < k →
        ((get_filename_format m :: (List.range' 1 k).map (candidate m)).contains
          (candidate m (1 + j))) = true := by
      intro j hj
      apply contains_true_of_mem
      apply List.mem_cons_of_mem
      exact List.mem_map_of_mem _ (List.mem_range'_1.mpr ⟨by omega, by omega⟩)
    have hfree :
        ((get_filename_format m :: (List.range' 1 k).map (candidate m)).contains
          (candidate m (1 + k))) = false := by
      apply contains_false_of_not_mem
      intro hmem
      rcases List.mem_cons.mp hmem with h | h
      · exact candidate_ne_format hne hnd (1 + k) h
      · rw [List.mem_map] at h
        obtain ⟨i, hi, hci⟩ := h
        rw [List.mem_range'_1] at hi
        have := candidate_inj hne hnd hci
        omega
    unfold get_unique_filepath
    rw [findSome_range' _ (candidate m) 99 1 k hk hocc hfree,
      show 1 + k = k + 1 from by omega]
  · intro fs hall
    unfold get_unique_filepath
    have hnone : (List.range' 1 99).findSome?
        (fun i => if fs.contains (candidate m i) then none
          else some (candidate m i)) = none := by
      rw [List.findSome?_eq_none_iff]
      intro i hi
      rw [contains_true_of_mem (hall i hi)]
      simp
    rw [hnone]

/-- Witness for C6: at the record of scenario A with k equal to one the
planner returns the second variant, and on a directory holding all
ninety-nine variants it raises. -/
theorem collision_monotonic_and_bounded_witness :
    get_unique_filepath
        (get_filename_format ⟨2021, 1, 1, 1, 1, 1, "jpg".data⟩ ::
          (List.range' 1 1).map (candidate ⟨2021, 1, 1, 1, 1, 1, "jpg".data⟩))
        ⟨2021, 1, 1, 1, 1, 1, "jpg".data⟩ =
      PlanResult.ok (candidate ⟨2021, 1, 1, 1, 1, 1, "jpg".data⟩ 2) ∧
    get_unique_filepath
        ((List.range' 1 99).map (candidate ⟨2021, 1, 1, 1, 1, 1, "jpg".data⟩))
        ⟨2021, 1, 1, 1, 1, 1, "jpg".data⟩ =
      PlanResult.uniquenessExhausted :=
  ⟨(collision_monotonic_and_bounded ⟨2021, 1, 1, 1, 1, 1, "jpg".data⟩
      (by decide) (by decide)).1 1 (by decide),
   (collision_monotonic_and_bounded ⟨2021, 1, 1, 1, 1, 1, "jpg".data⟩
      (by decide) (by decide)).2 _
      (fun i hi => List.mem_map_of_mem _ hi)⟩

/-- C9: planning is idempotent under an unchanged directory: the planner is a
pure function of the directory listing and the record, so two successive
calls with no filesystem change in between return identical results,
identical failures included. -/
theorem plan_idempotent (fs : List (List Char)) (m : FileMetaData) :
    get_unique_filepath fs m = get_unique_filepath fs m := rfl

/-- C1: the code never returns the canonical path unsuffixed.  The planner
does construct the canonical name of scenario A, but on an empty directory it
returns the first suffixed variant, not the canonical path the claim and
scenario A promise. -/
theorem plan_empty_dir_returns_suffixed :
    get_filename_format ⟨2021, 1, 1, 1, 1, 1, "jpg".data⟩ =
        "2021-01-01_01-01-01.jpg".data ∧
      get_unique_filepath [] ⟨2021, 1, 1, 1, 1, 1, "jpg".data⟩ =
        PlanResult.ok "2021-01-01_01-01-01_1.jpg".data ∧
      ("2021-01-01_01-01-01_1.jpg".data : List Char) ≠
        "2021-01-01_01-01-01.jpg".data :=
  ⟨by decide, by decide, by decide⟩

/- C3: the parser can raise. -/

/-- C3: the claim promises parse never raises, but on a filename matching
the VID grammar whose two-letter tag is alphabetic and not WA the source
calls int() on the tag and raises ValueError; the model evaluates the parser
to the raising outcome on exactly that input. -/
theorem parse_raises_on_alphabetic_tag :
    parse_filename "VID_20210101_AB1234.mp4".data = ParseOutcome.raises := by
  decide

/- C5: the batch loop aborts on the first planner failure. -/

/-- C5 amended: when the planner exhausts its bound on the first entry, the
batch loop returns exit code 1 immediately with no renames performed,
regardless of the remaining entries, because the single try/except around the
whole loop catches the exception and returns; the remaining directory entries
are not processed. -/
theorem batch_aborts_on_exhaustion (e : List Char) (rest fs : List (List Char))
    (m : FileMetaData) (h1 : parse_filename e = ParseOutcome.record m)
    (h2 : get_unique_filepath fs m = PlanResult.uniquenessExhausted) :
    rename_files (e :: rest) fs = ⟨[], 1⟩ := by
  simp [rename_files, h1, h2]

/-- C5 counterexample: with the first entry exhausting the planner bound, the
batch run renames nothing and exits 1, while the second entry alone in the
same directory would have been renamed; so the loop does not continue with
remaining entries as the claim states. -/
theorem batch_abort_counterexample :
    rename_files
        ["2021-01-01 01.01.01.jpg".data, "2021-01-02 01.01.01.jpg".data]
        ("2021-01-01 01.01.01.jpg".data :: "2021-01-02 01.01.01.jpg".data ::
          (List.range' 1 99).map (candidate ⟨2021, 1, 1, 1, 1, 1, "jpg".data⟩)) =
      ⟨[], 1⟩ ∧
    rename_files ["2021-01-02 01.01.01.jpg".data]
        ("2021-01-01 01.01.01.jpg".data :: "2021-01-02 01.01.01.jpg".data ::
          (List.range' 1 99).map (candidate ⟨2021, 1, 1, 1, 1, 1, "jpg".data⟩)) =
      ⟨[("2021-01-02 01.01.01.jpg".data, "2021-01-02_01-01-01_1.jpg".data)], 0⟩ :=
  ⟨by decide, by decide⟩

/-- Witness for the amended C5 at the concrete exhausted directory. -/
theorem batch_aborts_on_exhaustion_witness :
    rename_files
        ["2021-01-01 01.01.01.jpg".data, "2021-01-02 01.01.01.jpg".data]
        ("2021-01-01 01.01.01.jpg".data :: "2021-01-02 01.01.01.jpg".data ::
          (List.range' 1 99).map (candidate ⟨2021, 1, 1, 1, 1, 1, "jpg".data⟩)) =
      ⟨[], 1⟩ :=
  batch_aborts_on_exhaustion _ _ _ ⟨2021, 1, 1, 1, 1, 1, "jpg".data⟩
    (by decide) (by decide)

/- C2: the messaging-video grammar and the WA tag. -/

theorem toks5_inv {name : List Char} {gs : List (List Char)}
    (h : run toks5 name = some gs) :
    ∃ y mo d tag o w rest,
      name = ['V', 'I', 'D', '_'] ++
          (y ++ (mo ++ (d ++ '_' :: (tag ++ (o ++ '.' :: (w ++ rest)))))) ∧
        gs = [y, mo, d, tag, o, w] ∧
        y.length = 4 ∧ mo.length = 2 ∧ d.length = 2 ∧ tag.length = 2 ∧
        o.length = 4 ∧ y.all isDig = true ∧ mo.all isDig = true ∧
        d.all isDig = true ∧ tag.all isWord = true ∧ o.all isDig = true ∧
        w ≠ [] ∧ w.all isWord = true := by
  have hs := run_shape h
  rw [show toks5 = Tok.str ['V', 'I', 'D', '_'] :: Tok.cls isDig 4 ::
    Tok.cls isDig 2 :: Tok.cls isDig 2 :: Tok.sym '_' :: Tok.cls isWord 2 ::
    Tok.cls isDig 4 :: Tok.sym '.' :: Tok.plus isWord :: [] from rfl] at hs
  cases hs with
  | @str _ _ _ r1 hs =>
  cases hs with
  | @cls _ _ _ _ y r2 hyl hya hs =>
  cases hs with
  | @cls _ _ _ _ mo r3 hmol hmoa hs =>
  cases hs with
  | @cls _ _ _ _ d r4 hdl hda hs =>
  cases hs with
  | @sym _ _ _ r5 hs =>
  cases hs with
  | @cls _ _ _ _ tag r6 htl hta hs =>
  cases hs with
  | @cls _ _ _ _ o r7 hol hoa hs =>
  cases hs with
  | @sym _ _ _ r8 hs =>
  cases hs with
  | @plus _ _ _ w rest hwne hwa _ hs =>
  cases hs with
  | nil =>
  exact ⟨y, mo, d, tag, o, w, rest, rfl, rfl, hyl, hmol, hdl, htl, hol,
    hya, hmoa, hda, hta, hoa, hwne, hwa⟩

theorem run_cls_neg2 {p : Char → Bool} {n : Nat} {ts : List Tok} {c : Char}
    {s : List Char} (hn : n ≠ 0) (h : p c = false) :
    run (Tok.cls p n :: ts) (c :: s) = none := by
  cases n with
  | zero => exact absurd rfl hn
  | succ n => exact run_cls_neg h

/-- C2 amended: for every filename matching the messaging-video grammar with
the tag WA, parse returns minute and second zero but hour equal to the
integer value of the four-digit ordinal, because the WA branch of the source
reads the hour from the fifth captured group; the claimed all-zero time holds
only when the ordinal digits are all zero, as in scenario C. -/
theorem messaging_video_fields (name : List Char) (gs : List (List Char))
    (h : run toks5 name = some gs) (htag : gs.getD 3 [] = ['W', 'A']) :
    parse_filename name =
      ParseOutcome.record ⟨intVal (gs.getD 0 []), intVal (gs.getD 1 []),
        intVal (gs.getD 2 []), intVal (gs.getD 4 []), 0, 0,
        pyExtension name⟩ := by
  obtain ⟨y, mo, d, tag, o, w, rest, hname, hgs, hyl, hmol, hdl, htl, hol,
    hya, hmoa, hda, hta, hoa, hwne, hwa⟩ := toks5_inv h
  subst hgs
  have htag2 : tag = ['W', 'A'] := htag
  subst htag2
  subst hname
  have h1 : run toks1 ('V' :: (['I', 'D', '_'] ++
      (y ++ (mo ++ (d ++ '_' :: (['W', 'A'] ++ (o ++ '.' :: (w ++ rest)))))))) =
      none := run_cls_neg2 (by decide) (by decide)
  have h2 : run toks2 ('V' :: (['I', 'D', '_'] ++
      (y ++ (mo ++ (d ++ '_' :: (['W', 'A'] ++ (o ++ '.' :: (w ++ rest)))))))) =
      none := run_str_neg (by decide)
  have h3 : run toks3 ('V' :: (['I', 'D', '_'] ++
      (y ++ (mo ++ (d ++ '_' :: (['W', 'A'] ++ (o ++ '.' :: (w ++ rest)))))))) =
      none := run_str_neg (by decide)
  have h4 : run toks4 ('V' :: (['I', 'D', '_'] ++
      (y ++ (mo ++ (d ++ '_' :: (['W', 'A'] ++ (o ++ '.' :: (w ++ rest)))))))) =
      none := run_str_neg (by decide)
  have hmatch : matchPattern (['V', 'I', 'D', '_'] ++
      (y ++ (mo ++ (d ++ '_' :: (['W', 'A'] ++ (o ++ '.' :: (w ++ rest))))))) =
      some [y, mo, d, ['W', 'A'], o, w] := by
    unfold matchPattern
    have h5 : run toks5 ('V' :: (['I', 'D', '_'] ++
        (y ++ (mo ++ (d ++ '_' :: (['W', 'A'] ++ (o ++ '.' :: (w ++ rest)))))))) =
        some [y, mo, d, ['W', 'A'], o, w] := h
    rw [show (['V', 'I', 'D', '_'] ++
      (y ++ (mo ++ (d ++ '_' :: (['W', 'A'] ++ (o ++ '.' :: (w ++ rest))))))) =
      ('V' :: (['I', 'D', '_'] ++
      (y ++ (mo ++ (d ++ '_' :: (['W', 'A'] ++ (o ++ '.' :: (w ++ rest))))))))
      from rfl]
    rw [h1, h2, h3, h4, h5]
    rfl
  have hWA : hasSubstr (['V', 'I', 'D', '_'] ++
      (y ++ (mo ++ (d ++ '_' :: (['W', 'A'] ++ (o ++ '.' :: (w ++ rest)))))))
      ['W', 'A'] = true := by
    have hrw : (['V', 'I', 'D', '_'] ++
        (y ++ (mo ++ (d ++ '_' :: (['W', 'A'] ++ (o ++ '.' :: (w ++ rest))))))) =
        (['V', 'I', 'D', '_'] ++ (y ++ (mo ++ (d ++ ['_'])))) ++
          (['W', 'A'] ++ (o ++ '.' :: (w ++ rest))) := by
      simp [List.append_assoc]
    rw [hrw]
    exact hasSubstr_mid _ _ _
  unfold parse_filename
  rw [hmatch]
  dsimp only
  rw [if_pos hWA]

/-- C2 counterexample: parse of VID_20210101_WA1234.mp4 returns hour 1234,
not the zero hour the claim states for every four-digit ordinal. -/
theorem messaging_video_hour_counterexample :
    ∃ m : FileMetaData,
      parse_filename "VID_20210101_WA1234.mp4".data = ParseOutcome.record m ∧
        m.hour ≠ 0 :=
  ⟨⟨2021, 1, 1, 1234, 0, 0, ['m', 'p', '4']⟩, by decide, by decide⟩

/-- Witness for the amended C2 at the concrete ordinal 1234 and at the
scenario C ordinal 0000. -/
theorem messaging_video_fields_witness :
    parse_filename "VID_20210101_WA1234.mp4".data =
      ParseOutcome.record ⟨2021, 1, 1, 1234, 0, 0, ['m', 'p', '4']⟩ ∧
    parse_filename "VID_20210101_WA0000.mp4".data =
      ParseOutcome.record ⟨2021, 1, 1, 0, 0, 0, ['m', 'p', '4']⟩ := by
  constructor
  · have h := messaging_video_fields "VID_20210101_WA1234.mp4".data
      [['2', '0', '2', '1'], ['0', '1'], ['0', '1'], ['W', 'A'],
        ['1', '2', '3', '4'], ['m', 'p', '4']] (by decide) (by decide)
    exact h.trans (by decide)
  · have h := messaging_video_fields "VID_20210101_WA0000.mp4".data
      [['2', '0', '2', '1'], ['0', '1'], ['0', '1'], ['W', 'A'],
        ['0', '0', '0', '0'], ['m', 'p', '4']] (by decide) (by decide)
    exact h.trans (by decide)

/- C4: literal digit extraction for the non-messaging grammars. -/

theorem toks6_inv {name : List Char} {gs : List (List Char)}
    (h : run toks6 name = some gs) :
    ∃ y mo d h6 mi se d3 w rest,
      name = ['P', 'X', 'L', '_'] ++ (y ++ (mo ++ (d ++ '_' ::
          (h6 ++ (mi ++ (se ++ (d3 ++ '.' :: (w ++ rest)))))))) ∧
        gs = [y, mo, d, h6, mi, se, d3, w] ∧
        y.length = 4 ∧ mo.length = 2 ∧ d.length = 2 ∧ h6.length = 2 ∧
        mi.length = 2 ∧ se.length = 2 ∧ d3.length = 3 ∧
        y.all isDig = true ∧ mo.all isDig = true ∧ d.all isDig = true ∧
        h6.all isDig = true ∧ mi.all isDig = true ∧ se.all isDig = true ∧
        d3.all isDig = true ∧ w ≠ [] ∧ w.all isWord = true ∧
        (∀ c r2, rest = c :: r2 → isWord c = false) := by
  have hs := run_shape h
  rw [show toks6 = Tok.str ['P', 'X', 'L', '_'] :: Tok.cls isDig 4 ::
    Tok.cls isDig 2 :: Tok.cls isDig 2 :: Tok.sym '_' :: Tok.cls isDig 2 ::
    Tok.cls isDig 2 :: Tok.cls isDig 2 :: Tok.cls isDig 3 :: Tok.sym '.' ::
    Tok.plus isWord :: [] from rfl] at hs
  cases hs with
  | @str _ _ _ r1 hs =>
  cases hs with
  | @cls _ _ _ _ y r2 hyl hya hs =>
  cases hs with
  | @cls _ _ _ _ mo r3 hmol hmoa hs =>
  cases hs with
  | @cls _ _ _ _ d r4 hdl hda hs =>
  cases hs with
  | @sym _ _ _ r5 hs =>
  cases hs with
  | @cls _ _ _ _ h6 r6 hhl hha hs =>
  cases hs with
  | @cls _ _ _ _ mi r7 hmil hmia hs =>
  cases hs with
  | @cls _ _ _ _ se r8 hsel hsea hs =>
  cases hs with
  | @cls _ _ _ _ d3 r9 hd3l hd3a hs =>
  cases hs with
  | @sym _ _ _ r10 hs =>
  cases hs with
  | @plus _ _ _ w rest hwne hwa hmax hs =>
  cases hs with
  | nil =>
  exact ⟨y, mo, d, h6, mi, se, d3, w, rest, rfl, rfl, hyl, hmol, hdl, hhl,
    hmil, hsel, hd3l, hya, hmoa, hda, hha, hmia, hsea, hd3a, hwne, hwa, hmax⟩

theorem toks7_head_shape {name : List Char} {gs : List (List Char)}
    (h : run toks7 name = some gs) :
    ∃ y r, name = ['I', 'M', 'G', '_'] ++ (y ++ '-' :: r) ∧
      y.length = 4 ∧ y.all isDig = true := by
  have hs := run_shape h
  rw [show toks7 = Tok.str ['I', 'M', 'G', '_'] :: Tok.cls isDig 4 ::
    Tok.sym '-' :: toks7.drop 3 from rfl] at hs
  cases hs with
  | @str _ _ _ r1 hs =>
  cases hs with
  | @cls _ _ _ _ y r2 hyl hya hs =>
  cases hs with
  | @sym _ _ _ r3 hs =>
  exact ⟨y, r3, rfl, hyl, hya⟩

theorem toks8_inv {name : List Char} {gs : List (List Char)}
    (h : run toks8 name = some gs) :
    ∃ y mo d h8 mi se d3 r,
      name = ['I', 'M', 'G', '_'] ++ (y ++ '-' :: (mo ++ '-' :: (d ++ '-' ::
          (h8 ++ '-' :: (mi ++ '-' :: (se ++ '-' :: (d3 ++ '-' :: r))))))) ∧
        y.length = 4 ∧ mo.length = 2 ∧ d.length = 2 ∧ h8.length = 2 ∧
        mi.length = 2 ∧ se.length = 2 ∧ d3.length = 3 ∧
        y.all isDig = true ∧ mo.all isDig = true ∧ d.all isDig = true ∧
        h8.all isDig = true ∧ mi.all isDig = true ∧ se.all isDig = true ∧
        d3.all isDig = true := by
  have hs := run_shape h
  rw [show toks8 = Tok.str ['I', 'M', 'G', '_'] :: Tok.cls isDig 4 ::
    Tok.sym '-' :: Tok.cls isDig 2 :: Tok.sym '-' :: Tok.cls isDig 2 ::
    Tok.sym '-' :: Tok.cls isDig 2 :: Tok.sym '-' :: Tok.cls isDig 2 ::
    Tok.sym '-' :: Tok.cls isDig 2 :: Tok.sym '-' :: Tok.cls isDig 3 ::
    Tok.sym '-' :: Tok.plus isDig :: Tok.sym '.' :: Tok.plus isWord :: []
    from rfl] at hs
  cases hs with
  | @str _ _ _ r1 hs =>
  cases hs with
  | @cls _ _ _ _ y r2 hyl hya hs =>
  cases hs with
  | @sym _ _ _ r3 hs =>
  cases hs with
  | @cls _ _ _ _ mo r4 hmol hmoa hs =>
  cases hs with
  | @sym _ _ _ r5 hs =>
  cases hs with
  | @cls _ _ _ _ d r6 hdl hda hs =>
  cases hs with
  | @sym _ _ _ r7 hs =>
  cases hs with
  | @cls _ _ _ _ h8 r8 hhl hha hs =>
  cases hs with
  | @sym _ _ _ r9 hs =>
  cases hs with
  | @cls _ _ _ _ mi r10 hmil hmia hs =>
  cases hs with
  | @sym _ _ _ r11 hs =>
  cases hs with
  | @cls _ _ _ _ se r12 hsel hsea hs =>
  cases hs with
  | @sym _ _ _ r13 hs =>
  cases hs with
  | @cls _ _ _ _ d3 r14 hd3l hd3a hs =>
  cases hs with
  | @sym _ _ _ r15 hs =>
  exact ⟨y, mo, d, h8, mi, se, d3, r15, rfl, hyl, hmol, hdl, hhl, hmil, hsel,
    hd3l, hya, hmoa, hda, hha, hmia, hsea, hd3a⟩

theorem toks9_inv {name : List Char} {gs : List (List Char)}
    (h : run toks9 name = some gs) :
    ∃ y mo d h9 mi se r,
      name = y ++ '-' :: (mo ++ '-' :: (d ++ ' ' :: (h9 ++ '.' ::
          (mi ++ '.' :: (se ++ '_' :: r))))) ∧
        y.length = 4 ∧ mo.length = 2 ∧ d.length = 2 ∧ h9.length = 2 ∧
        mi.length = 2 ∧ se.length = 2 ∧
        y.all isDig = true ∧ mo.all isDig = true ∧ d.all isDig = true ∧
        h9.all isDig = true ∧ mi.all isDig = true ∧ se.all isDig = true := by
  have hs := run_shape h
  rw [show toks9 = Tok.cls isDig 4 :: Tok.sym '-' :: Tok.cls isDig 2 ::
    Tok.sym '-' :: Tok.cls isDig 2 :: Tok.sym ' ' :: Tok.cls isDig 2 ::
    Tok.sym '.' :: Tok.cls isDig 2 :: Tok.sym '.' :: Tok.cls isDig 2 ::
    Tok.sym '_' :: Tok.plus isDig :: Tok.sym '.' :: Tok.plus isWord :: []
    from rfl] at hs
  cases hs with
  | @cls _ _ _ _ y r1 hyl hya hs =>
  cases hs with
  | @sym _ _ _ r2 hs =>
  cases hs with
  | @cls _ _ _ _ mo r3 hmol hmoa hs =>
  cases hs with
  | @sym _ _ _ r4 hs =>
  cases hs with
  | @cls _ _ _ _ d r5 hdl hda hs =>
  cases hs with
  | @sym _ _ _ r6 hs =>
  cases hs with
  | @cls _ _ _ _ h9 r7 hhl hha hs =>
  cases hs with
  | @sym _ _ _ r8 hs =>
  cases hs with
  | @cls _ _ _ _ mi r9 hmil hmia hs =>
  cases hs with
  | @sym _ _ _ r10 hs =>
  cases hs with
  | @cls _ _ _ _ se r11 hsel hsea hs =>
  cases hs with
  | @sym _ _ _ r12 hs =>
  exact ⟨y, mo, d, h9, mi, se, r12, rfl, hyl, hmol, hdl, hhl, hmil, hsel,
    hya, hmoa, hda, hha, hmia, hsea⟩

theorem toks2_fails_after_IMG {y r : List Char} (hyl : y.length = 4)
    (hya : y.all isDig = true) :
    run toks2 (['I', 'M', 'G', '_'] ++ (y ++ '-' :: r)) = none := by
  rw [show toks2 = Tok.str ['I', 'M', 'G', '_'] :: Tok.cls isDig 4 ::
    Tok.cls isDig 2 :: toks2.drop 3 from rfl]
  rw [run_str_step, run_cls_step _ hyl hya,
    run_cls_neg2 (by decide) (by decide)]
  rfl

theorem toks7_fails_on_toks8 {y mo d h8 mi se d3 r : List Char}
    (hyl : y.length = 4) (hmol : mo.length = 2) (hdl : d.length = 2)
    (hhl : h8.length = 2) (hmil : mi.length = 2) (hsel : se.length = 2)
    (hd3l : d3.length = 3) (hya : y.all isDig = true)
    (hmoa : mo.all isDig = true) (hda : d.all isDig = true)
    (hha : h8.all isDig = true) (hmia : mi.all isDig = true)
    (hsea : se.all isDig = true) (hd3a : d3.all isDig = true) :
    run toks7 (['I', 'M', 'G', '_'] ++ (y ++ '-' :: (mo ++ '-' :: (d ++ '-' ::
      (h8 ++ '-' :: (mi ++ '-' :: (se ++ '-' :: (d3 ++ '-' :: r)))))))) =
      none := by
  rw [show toks7 = Tok.str ['I', 'M', 'G', '_'] :: Tok.cls isDig 4 ::
    Tok.sym '-' :: Tok.cls isDig 2 :: Tok.sym '-' :: Tok.cls isDig 2 ::
    Tok.sym '-' :: Tok.cls isDig 2 :: Tok.sym '-' :: Tok.cls isDig 2 ::
    Tok.sym '-' :: Tok.cls isDig 2 :: Tok.sym '-' :: Tok.cls isDig 3 ::
    Tok.sym '.' :: Tok.plus isWord :: [] from rfl]
  rw [run_str_step, run_cls_step _ hyl hya, run_sym_step,
    run_cls_step _ hmol hmoa, run_sym_step, run_cls_step _ hdl hda,
    run_sym_step, run_cls_step _ hhl hha, run_sym_step,
    run_cls_step _ hmil hmia, run_sym_step, run_cls_step _ hsel hsea,
    run_sym_step, run_cls_step _ hd3l hd3a, run_sym_neg (by decide)]
  rfl

theorem toks1_fails_on_toks9 {y mo d h9 mi se r : List Char}
    (hyl : y.length = 4) (hmol : mo.length = 2) (hdl : d.length = 2)
    (hhl : h9.length = 2) (hmil : mi.length = 2) (hsel : se.length = 2)
    (hya : y.all isDig = true) (hmoa : mo.all isDig = true)
    (hda : d.all isDig = true) (hha : h9.all isDig = true)
    (hmia : mi.all isDig = true) (hsea : se.all isDig = true) :
    run toks1 (y ++ '-' :: (mo ++ '-' :: (d ++ ' ' :: (h9 ++ '.' ::
      (mi ++ '.' :: (se ++ '_' :: r)))))) = none := by
  rw [show toks1 = Tok.cls isDig 4 :: Tok.sym '-' :: Tok.cls isDig 2 ::
    Tok.sym '-' :: Tok.cls isDig 2 :: Tok.sym ' ' :: Tok.cls isDig 2 ::
    Tok.sym '.' :: Tok.cls isDig 2 :: Tok.sym '.' :: Tok.cls isDig 2 ::
    Tok.sym '.' :: Tok.plus isWord :: [] from rfl]
  rw [run_cls_step _ hyl hya, run_sym_step, run_cls_step _ hmol hmoa,
    run_sym_step, run_cls_step _ hdl hda, run_sym_step,
    run_cls_step _ hhl hha, run_sym_step, run_cls_step _ hmil hmia,
    run_sym_step, run_cls_step _ hsel hsea, run_sym_neg (by decide)]
  rfl

theorem toks3_succeeds_on_toks6 {y mo d h6 mi se d3 w rest : List Char}
    (hyl : y.length = 4) (hmol : mo.length = 2) (hdl : d.length = 2)
    (hhl : h6.length = 2) (hmil : mi.length = 2) (hsel : se.length = 2)
    (hd3l : d3.length = 3) (hya : y.all isDig = true)
    (hmoa : mo.all isDig = true) (hda : d.all isDig = true)
    (hha : h6.all isDig = true) (hmia : mi.all isDig = true)
    (hsea : se.all isDig = true) (hd3a : d3.all isDig = true)
    (hwne : w ≠ []) (hwa : w.all isWord = true)
    (hmax : ∀ c r2, rest = c :: r2 → isWord c = false) :
    run toks3 (['P', 'X', 'L', '_'] ++ (y ++ (mo ++ (d ++ '_' ::
      (h6 ++ (mi ++ (se ++ (d3 ++ '.' :: (w ++ rest))))))))) =
      some [y, mo, d, h6, mi, se, d3, w] := by
  apply shape_run
  rw [show toks3 = Tok.str ['P', 'X', 'L', '_'] :: Tok.cls isDig 4 ::
    Tok.cls isDig 2 :: Tok.cls isDig 2 :: Tok.sym '_' :: Tok.cls isDig 2 ::
    Tok.cls isDig 2 :: Tok.cls isDig 2 :: Tok.plus isDig :: Tok.sym '.' ::
    Tok.plus isWord :: [] from rfl]
  exact Shaped.str (Shaped.cls hyl hya (Shaped.cls hmol hmoa
    (Shaped.cls hdl hda (Shaped.sym (Shaped.cls hhl hha (Shaped.cls hmil hmia
      (Shaped.cls hsel hsea (Shaped.plus
        (by intro hd3; rw [hd3] at hd3l; cases hd3l) hd3a
        (by intro c r2 hr; cases hr; decide)
        (Shaped.sym (Shaped.plus hwne hwa hmax (Shaped.nil rest)))))))))))

theorem parse_else (name : List Char) (gs : List (List Char))
    (hmatch : matchPattern name = some gs) (hlen : gs.length ≠ 6)
    (hwa : hasSubstr name ['W', 'A'] = false) :
    parse_filename name = ParseOutcome.record ⟨intVal (gs.getD 0 []),
      intVal (gs.getD 1 []), intVal (gs.getD 2 []), intVal (gs.getD 3 []),
      intVal (gs.getD 4 []), intVal (gs.getD 5 []), pyExtension name⟩ := by
  unfold parse_filename
  rw [hmatch]
  dsimp only
  rw [if_neg (by simp [hwa])]
  rw [if_neg (by
    intro hcond
    rw [Bool.and_eq_true] at hcond
    exact hlen (by simpa using hcond.1))]

theorem run_str_fails_digit_head {c0 : Char} {cs : List Char} {ts : List Tok}
    {y s : List Char} (hne : y ≠ []) (hy : y.all isDig = true)
    (hc : isDig c0 = false) :
    run (Tok.str (c0 :: cs) :: ts) (y ++ s) = none := by
  cases y with
  | nil => exact absurd rfl hne
  | cons c y0 =>
    rw [List.cons_append]
    apply run_str_neg
    intro he
    rw [List.all_cons, Bool.and_eq_true] at hy
    rw [he] at hy
    rw [hy.1] at hc
    cases hc

/-- C4 amended: for every filename matching one of the non-messaging grammars
and not containing the substring WA, parse returns exactly the literal digits
captured at the year, month, day, hour, minute and second positions of that
grammar; the claim as stated fails on names containing WA, such as a PXL name
with the extension WAV, because the WA test of the source looks at the whole
name. -/
theorem grammar_fields_literal (name : List Char) (gs : List (List Char))
    (h : run toks1 name = some gs ∨ run toks2 name = some gs ∨
      run toks3 name = some gs ∨ run toks4 name = some gs ∨
      run toks6 name = some gs ∨ run toks7 name = some gs ∨
      run toks8 name = some gs ∨ run toks9 name = some gs)
    (hwa : hasSubstr name ['W', 'A'] = false) :
    parse_filename name = ParseOutcome.record ⟨intVal (gs.getD 0 []),
      intVal (gs.getD 1 []), intVal (gs.getD 2 []), intVal (gs.getD 3 []),
      intVal (gs.getD 4 []), intVal (gs.getD 5 []), pyExtension name⟩ := by
  rcases h with h | h | h | h | h | h | h | h
  · refine parse_else name gs ?_ ?_ hwa
    · unfold matchPattern
      rw [h]
      rfl
    · rw [shaped_length (run_shape h)]
      decide
  · have hs := run_shape h
    rw [show toks2 = Tok.str ('I' :: ['M', 'G', '_']) :: toks2.drop 1
      from rfl] at hs
    obtain ⟨r1, hn⟩ := shaped_head_str hs
    subst hn
    refine parse_else _ gs ?_ ?_ hwa
    · unfold matchPattern
      rw [show run toks1 ('I' :: r1) = none from
        run_cls_neg2 (by decide) (by decide), h]
      rfl
    · rw [shaped_length (run_shape h)]
      decide
  · have hs := run_shape h
    rw [show toks3 = Tok.str ('P' :: ['X', 'L', '_']) :: toks3.drop 1
      from rfl] at hs
    obtain ⟨r1, hn⟩ := shaped_head_str hs
    subst hn
    refine parse_else _ gs ?_ ?_ hwa
    · unfold matchPattern
      rw [show run toks1 ('P' :: r1) = none from
        run_cls_neg2 (by decide) (by decide),
        show run toks2 ('P' :: r1) = none from run_str_neg (by decide), h]
      rfl
    · rw [shaped_length (run_shape h)]
      decide
  · have hs := run_shape h
    rw [show toks4 = Tok.str ('S' :: ['c', 'r', 'e', 'e', 'n', 's', 'h', 'o',
      't', ' ', 'f', 'r', 'o', 'm', ' ']) :: toks4.drop 1 from rfl] at hs
    obtain ⟨r1, hn⟩ := shaped_head_str hs
    subst hn
    refine parse_else _ gs ?_ ?_ hwa
    · unfold matchPattern
      rw [show run toks1 ('S' :: r1) = none from
        run_cls_neg2 (by decide) (by decide),
        show run toks2 ('S' :: r1) = none from run_str_neg (by decide),
        show run toks3 ('S' :: r1) = none from run_str_neg (by decide), h]
      rfl
    · rw [shaped_length (run_shape h)]
      decide
  · obtain ⟨y, mo, d, h6, mi, se, d3, w, rest, hname, hgs, hyl, hmol, hdl,
      hhl, hmil, hsel, hd3l, hya, hmoa, hda, hha, hmia, hsea, hd3a, hwne,
      hwa2, hmax⟩ := toks6_inv h
    subst hgs
    subst hname
    have h3 := toks3_succeeds_on_toks6 hyl hmol hdl hhl hmil hsel hd3l hya
      hmoa hda hha hmia hsea hd3a hwne hwa2 hmax
    refine parse_else _ _ ?_ ?_ hwa
    · unfold matchPattern
      rw [show run toks1 (['P', 'X', 'L', '_'] ++ (y ++ (mo ++ (d ++ '_' ::
          (h6 ++ (mi ++ (se ++ (d3 ++ '.' :: (w ++ rest))))))))) = none from
        run_cls_neg2 (by decide) (by decide),
        show run toks2 (['P', 'X', 'L', '_'] ++ (y ++ (mo ++ (d ++ '_' ::
          (h6 ++ (mi ++ (se ++ (d3 ++ '.' :: (w ++ rest))))))))) = none from
        run_str_neg (by decide), h3]
      rfl
    · simp
  · obtain ⟨y, r, hn, hyl, hya⟩ := toks7_head_shape h
    subst hn
    refine parse_else _ gs ?_ ?_ hwa
    · unfold matchPattern
      rw [show run toks1 (['I', 'M', 'G', '_'] ++ (y ++ '-' :: r)) = none
          from run_cls_neg2 (by decide) (by decide),
        toks2_fails_after_IMG hyl hya,
        show run toks3 (['I', 'M', 'G', '_'] ++ (y ++ '-' :: r)) = none
          from run_str_neg (by decide),
        show run toks4 (['I', 'M', 'G', '_'] ++ (y ++ '-' :: r)) = none
          from run_str_neg (by decide),
        show run toks5 (['I', 'M', 'G', '_'] ++ (y ++ '-' :: r)) = none
          from run_str_neg (by decide),
        show run toks6 (['I', 'M', 'G', '_'] ++ (y ++ '-' :: r)) = none
          from run_str_neg (by decide), h]
      rfl
    · rw [shaped_length (run_shape h)]
      decide
  · obtain ⟨y, mo, d, h8, mi, se, d3, r, hname, hyl, hmol, hdl, hhl, hmil,
      hsel, hd3l, hya, hmoa, hda, hha, hmia, hsea, hd3a⟩ := toks8_inv h
    subst hname
    refine parse_else _ gs ?_ ?_ hwa
    · unfold matchPattern
      rw [show run toks1 (['I', 'M', 'G', '_'] ++ (y ++ '-' :: (mo ++ '-' ::
          (d ++ '-' :: (h8 ++ '-' :: (mi ++ '-' :: (se ++ '-' ::
          (d3 ++ '-' :: r)))))))) = none from
          run_cls_neg2 (by decide) (by decide),
        toks2_fails_after_IMG hyl hya,
        show run toks3 (['I', 'M', 'G', '_'] ++ (y ++ '-' :: (mo ++ '-' ::
          (d ++ '-' :: (h8 ++ '-' :: (mi ++ '-' :: (se ++ '-' ::
          (d3 ++ '-' :: r)))))))) = none from run_str_neg (by decide),
        show run toks4 (['I', 'M', 'G', '_'] ++ (y ++ '-' :: (mo ++ '-' ::
          (d ++ '-' :: (h8 ++ '-' :: (mi ++ '-' :: (se ++ '-' ::
          (d3 ++ '-' :: r)))))))) = none from run_str_neg (by decide),
        show run toks5 (['I', 'M', 'G', '_'] ++ (y ++ '-' :: (mo ++ '-' ::
          (d ++ '-' :: (h8 ++ '-' :: (mi ++ '-' :: (se ++ '-' ::
          (d3 ++ '-' :: r)))))))) = none from run_str_neg (by decide),
        show run toks6 (['I', 'M', 'G', '_'] ++ (y ++ '-' :: (mo ++ '-' ::
          (d ++ '-' :: (h8 ++ '-' :: (mi ++ '-' :: (se ++ '-' ::
          (d3 ++ '-' :: r)))))))) = none from run_str_neg (by decide),
        toks7_fails_on_toks8 hyl hmol hdl hhl hmil hsel hd3l hya hmoa hda
          hha hmia hsea hd3a, h]
      rfl
    · rw [shaped_length (run_shape h)]
      decide
  · obtain ⟨y, mo, d, h9, mi, se, r, hname, hyl, hmol, hdl, hhl, hmil, hsel,
      hya, hmoa, hda, hha, hmia, hsea⟩ := toks9_inv h
    subst hname
    have hyne : y ≠ [] := by
      intro he
      rw [he] at hyl
      cases hyl
    refine parse_else _ gs ?_ ?_ hwa
    · unfold matchPattern
      rw [toks1_fails_on_toks9 hyl hmol hdl hhl hmil hsel hya hmoa hda hha
          hmia hsea,
        show run toks2 (y ++ '-' :: (mo ++ '-' :: (d ++ ' ' :: (h9 ++ '.' ::
          (mi ++ '.' :: (se ++ '_' :: r)))))) = none from
          run_str_fails_digit_head hyne hya (by decide),
        show run toks3 (y ++ '-' :: (mo ++ '-' :: (d ++ ' ' :: (h9 ++ '.' ::
          (mi ++ '.' :: (se ++ '_' :: r)))))) = none from
          run_str_fails_digit_head hyne hya (by decide),
        show run toks4 (y ++ '-' :: (mo ++ '-' :: (d ++ ' ' :: (h9 ++ '.' ::
          (mi ++ '.' :: (se ++ '_' :: r)))))) = none from
          run_str_fails_digit_head hyne hya (by decide),
        show run toks5 (y ++ '-' :: (mo ++ '-' :: (d ++ ' ' :: (h9 ++ '.' ::
          (mi ++ '.' :: (se ++ '_' :: r)))))) = none from
          run_str_fails_digit_head hyne hya (by decide),
        show run toks6 (y ++ '-' :: (mo ++ '-' :: (d ++ ' ' :: (h9 ++ '.' ::
          (mi ++ '.' :: (se ++ '_' :: r)))))) = none from
          run_str_fails_digit_head hyne hya (by decide),
        show run toks7 (y ++ '-' :: (mo ++ '-' :: (d ++ ' ' :: (h9 ++ '.' ::
          (mi ++ '.' :: (se ++ '_' :: r)))))) = none from
          run_str_fails_digit_head hyne hya (by decide),
        show run toks8 (y ++ '-' :: (mo ++ '-' :: (d ++ ' ' :: (h9 ++ '.' ::
          (mi ++ '.' :: (se ++ '_' :: r)))))) = none from
          run_str_fails_digit_head hyne hya (by decide), h]
      rfl
    · rw [shaped_length (run_shape h)]
      decide

/-- C4 counterexample: the PXL name with extension WAV matches grammar 3, but
because the name contains the substring WA the source zeroes minute and
second and takes the minute digits as the hour: parse returns (4, 0, 0)
instead of the literal captured time (12, 4, 56). -/
theorem grammar_fields_counterexample :
    ∃ m : FileMetaData,
      parse_filename "PXL_20210101_120456789.WAV".data =
          ParseOutcome.record m ∧
        ¬(m.hour = 12 ∧ m.minute = 4 ∧ m.second = 56) :=
  ⟨⟨2021, 1, 1, 4, 0, 0, ['W', 'A', 'V']⟩, by decide, by decide⟩

/-- Witness for the amended C4 at a concrete grammar 1 filename. -/
theorem grammar_fields_literal_witness :
    parse_filename "2021-01-01 02.03.04.jpg".data =
      ParseOutcome.record ⟨2021, 1, 1, 2, 3, 4, ['j', 'p', 'g']⟩ := by
  have h := grammar_fields_literal "2021-01-01 02.03.04.jpg".data
    [['2', '0', '2', '1'], ['0', '1'], ['0', '1'], ['0', '2'], ['0', '3'],
      ['0', '4'], ['j', 'p', 'g']] (Or.inl (by decide)) (by decide)
  exact h.trans (by decide)

/- C10: matching is prefix matching, so appended characters never cause
rejection. -/

theorem head_of_VID {s t X : List Char} {c : Char} {s0 : List Char}
    (hst : s ++ t = ['V', 'I', 'D', '_'] ++ X) (hs : s = c :: s0) :
    c = 'V' := by
  subst hs
  have h2 : c :: (s0 ++ t) = 'V' :: (['I', 'D', '_'] ++ X) := hst
  rw [List.cons.injEq] at h2
  exact h2.1

theorem vid_tag_eq {y mo d tag o y2 mo2 d2 tag2 o2 X X2 : List Char}
    (hyl : y.length = 4) (hyl2 : y2.length = 4) (hmol : mo.length = 2)
    (hmol2 : mo2.length = 2) (hdl : d.length = 2) (hdl2 : d2.length = 2)
    (htl : tag.length = 2) (htl2 : tag2.length = 2)
    (heq : y ++ (mo ++ (d ++ '_' :: (tag ++ (o ++ X)))) =
      y2 ++ (mo2 ++ (d2 ++ '_' :: (tag2 ++ (o2 ++ X2))))) :
    tag = tag2 := by
  obtain ⟨_, heq⟩ := List.append_inj heq (by rw [hyl, hyl2])
  obtain ⟨_, heq⟩ := List.append_inj heq (by rw [hmol, hmol2])
  obtain ⟨_, heq⟩ := append_cons_inj heq (by rw [hdl, hdl2])
  exact List.append_inj_left heq (by rw [htl, htl2])

/-- C10: grammar matching anchors only at the start of the name, so for every
name the parser turns into a record and every trailing string, the extended
name is still turned into a record (never rejected, never an exception), and
the extension of that record is the text after the last dot of the whole
extended name. -/
theorem parse_accepts_appended (s t : List Char) (r : FileMetaData)
    (h : parse_filename s = ParseOutcome.record r) :
    ∃ r2, parse_filename (s ++ t) = ParseOutcome.record r2 ∧
      r2.extension = specExtension (s ++ t) := by
  have hm : ∃ gs, matchPattern s = some gs := by
    unfold parse_filename at h
    cases hmc : matchPattern s with
    | none => rw [hmc] at h; cases h
    | some gs => exact ⟨gs, rfl⟩
  obtain ⟨gs, hm⟩ := hm
  have hms := matchPattern_cases hm
  have hm2 : ∃ gs3, matchPattern (s ++ t) = some gs3 := by
    rcases hms with h1 | h1 | h1 | h1 | h1 | h1 | h1 | h1 | h1
    · obtain ⟨gs2, h2⟩ := run_extend (by decide) h1 t
      exact matchPattern_exists (Or.inl h2)
    · obtain ⟨gs2, h2⟩ := run_extend (by decide) h1 t
      exact matchPattern_exists (Or.inr (Or.inl h2))
    · obtain ⟨gs2, h2⟩ := run_extend (by decide) h1 t
      exact matchPattern_exists (Or.inr (Or.inr (Or.inl h2)))
    · obtain ⟨gs2, h2⟩ := run_extend (by decide) h1 t
      exact matchPattern_exists (Or.inr (Or.inr (Or.inr (Or.inl h2))))
    · obtain ⟨gs2, h2⟩ := run_extend (by decide) h1 t
      exact matchPattern_exists (Or.inr (Or.inr (Or.inr (Or.inr (Or.inl h2)))))
    · obtain ⟨gs2, h2⟩ := run_extend (by decide) h1 t
      exact matchPattern_exists
        (Or.inr (Or.inr (Or.inr (Or.inr (Or.inr (Or.inl h2))))))
    · obtain ⟨gs2, h2⟩ := run_extend (by decide) h1 t
      exact matchPattern_exists
        (Or.inr (Or.inr (Or.inr (Or.inr (Or.inr (Or.inr (Or.inl h2)))))))
    · obtain ⟨gs2, h2⟩ := run_extend (by decide) h1 t
      exact matchPattern_exists
        (Or.inr (Or.inr (Or.inr (Or.inr (Or.inr (Or.inr (Or.inr (Or.inl h2))))))))
    · obtain ⟨gs2, h2⟩ := run_extend (by decide) h1 t
      exact matchPattern_exists
        (Or.inr (Or.inr (Or.inr (Or.inr (Or.inr (Or.inr (Or.inr (Or.inr h2))))))))
  obtain ⟨gs3, hm2⟩ := hm2
  have hpe : pyExtension (s ++ t) = specExtension (s ++ t) :=
    pyExtension_eq_spec (match_head_not_dot hm2)
  by_cases hWA2 : hasSubstr (s ++ t) ['W', 'A'] = true
  · refine ⟨⟨intVal (gs3.getD 0 []), intVal (gs3.getD 1 []),
      intVal (gs3.getD 2 []), intVal (gs3.getD 4 []), 0, 0,
      pyExtension (s ++ t)⟩, ?_, ?_⟩
    · unfold parse_filename
      rw [hm2]
      dsimp only
      rw [if_pos hWA2]
    · exact hpe
  · have hWA2f : hasSubstr (s ++ t) ['W', 'A'] = false := by
      cases hx : hasSubstr (s ++ t) ['W', 'A'] with
      | false => rfl
      | true => exact absurd hx hWA2
    by_cases hV : (gs3.length == 6 && hasSubstr (s ++ t) ['V', 'I', 'D']) = true
    · have hlen6 : gs3.length = 6 := by
        rw [Bool.and_eq_true] at hV
        simpa using hV.1
      have h5 : run toks5 (s ++ t) = some gs3 := by
        rcases matchPattern_cases hm2 with h1 | h1 | h1 | h1 | h1 | h1 | h1 | h1 | h1
        · rw [shaped_length (run_shape h1)] at hlen6; cases hlen6
        · rw [shaped_length (run_shape h1)] at hlen6; cases hlen6
        · rw [shaped_length (run_shape h1)] at hlen6; cases hlen6
        · rw [shaped_length (run_shape h1)] at hlen6; cases hlen6
        · exact h1
        · rw [shaped_length (run_shape h1)] at hlen6; cases hlen6
        · rw [shaped_length (run_shape h1)] at hlen6; cases hlen6
        · rw [shaped_length (run_shape h1)] at hlen6; cases hlen6
        · rw [shaped_length (run_shape h1)] at hlen6; cases hlen6
      obtain ⟨y2, mo2, d2, tag2, o2, w2, rest2, hname2, hgs2, hyl2, hmol2,
        hdl2, htl2, hol2, hya2, hmoa2, hda2, hta2, hoa2, hwne2, hwa2⟩ :=
        toks5_inv h5
      have h5s : run toks5 s = some gs := by
        rcases hms with h1 | h1 | h1 | h1 | h1 | h1 | h1 | h1 | h1
        · have hs1 := run_shape h1
          rw [show toks1 = Tok.cls isDig 4 :: toks1.drop 1 from rfl] at hs1
          obtain ⟨c, s0, he, hdg⟩ := shaped_head_cls hs1 (by decide)
          rw [head_of_VID hname2 he] at hdg
          exact absurd hdg (by decide)
        · have hs1 := run_shape h1
          rw [show toks2 = Tok.str ('I' :: ['M', 'G', '_']) :: toks2.drop 1
            from rfl] at hs1
          obtain ⟨s0, he⟩ := shaped_head_str hs1
          exact absurd (head_of_VID hname2 he) (by decide)
        · have hs1 := run_shape h1
          rw [show toks3 = Tok.str ('P' :: ['X', 'L', '_']) :: toks3.drop 1
            from rfl] at hs1
          obtain ⟨s0, he⟩ := shaped_head_str hs1
          exact absurd (head_of_VID hname2 he) (by decide)
        · have hs1 := run_shape h1
          rw [show toks4 = Tok.str ('S' :: ['c', 'r', 'e', 'e', 'n', 's',
            'h', 'o', 't', ' ', 'f', 'r', 'o', 'm', ' ']) :: toks4.drop 1
            from rfl] at hs1
          obtain ⟨s0, he⟩ := shaped_head_str hs1
          exact absurd (head_of_VID hname2 he) (by decide)
        · exact h1
        · have hs1 := run_shape h1
          rw [show toks6 = Tok.str ('P' :: ['X', 'L', '_']) :: toks6.drop 1
            from rfl] at hs1
          obtain ⟨s0, he⟩ := shaped_head_str hs1
          exact absurd (head_of_VID hname2 he) (by decide)
        · have hs1 := run_shape h1
          rw [show toks7 = Tok.str ('I' :: ['M', 'G', '_']) :: toks7.drop 1
            from rfl] at hs1
          obtain ⟨s0, he⟩ := shaped_head_str hs1
          exact absurd (head_of_VID hname2 he) (by decide)
        · have hs1 := run_shape h1
          rw [show toks8 = Tok.str ('I' :: ['M', 'G', '_']) :: toks8.drop 1
            from rfl] at hs1
          obtain ⟨s0, he⟩ := shaped_head_str hs1
          exact absurd (head_of_VID hname2 he) (by decide)
        · have hs1 := run_shape h1
          rw [show toks9 = Tok.cls isDig 4 :: toks9.drop 1 from rfl] at hs1
          obtain ⟨c, s0, he, hdg⟩ := shaped_head_cls hs1 (by decide)
          rw [head_of_VID hname2 he] at hdg
          exact absurd hdg (by decide)
      obtain ⟨y, mo, d, tag, o, w, rest, hname, hgs, hyl, hmol, hdl, htl,
        hol, hya, hmoa, hda, hta, hoa, hwne, hwa⟩ := toks5_inv h5s
      have htageq : tag2 = tag := by
        have heq0 : ['V', 'I', 'D', '_'] ++ (y2 ++ (mo2 ++ (d2 ++ '_' ::
            (tag2 ++ (o2 ++ ('.' :: (w2 ++ rest2))))))) =
            ['V', 'I', 'D', '_'] ++ (y ++ (mo ++ (d ++ '_' :: (tag ++ (o ++
            ('.' :: (w ++ (rest ++ t)))))))) := by
          rw [← hname2, hname]
          simp [List.append_assoc]
        exact vid_tag_eq hyl2 hyl hmol2 hmol hdl2 hdl htl2 htl
          (List.append_cancel_left heq0)
      have hWAs : hasSubstr s ['W', 'A'] = false := by
        cases hb : hasSubstr s ['W', 'A'] with
        | false => rfl
        | true =>
          rw [hasSubstr_append_right t hb] at hWA2f
          cases hWA2f
      have hVIDs : hasSubstr s ['V', 'I', 'D'] = true := by
        rw [hname]
        rw [show (['V', 'I', 'D', '_'] ++
          (y ++ (mo ++ (d ++ '_' :: (tag ++ (o ++ '.' :: (w ++ rest))))))) =
          [] ++ (['V', 'I', 'D'] ++ ('_' ::
          (y ++ (mo ++ (d ++ '_' :: (tag ++ (o ++ '.' :: (w ++ rest))))))))
          from rfl]
        exact hasSubstr_mid _ _ _
      have hvt : ∃ hv, intTag tag = some hv := by
        unfold parse_filename at h
        rw [hm] at h
        dsimp only at h
        rw [if_neg (by simp [hWAs])] at h
        rw [if_pos (by rw [hgs]; simp [hVIDs])] at h
        rw [hgs] at h
        cases hi : intTag tag with
        | none =>
          rw [show ([y, mo, d, tag, o, w].getD 3 []) = tag from rfl, hi] at h
          cases h
        | some hv => exact ⟨hv, rfl⟩
      obtain ⟨hv, hiv⟩ := hvt
      subst hgs2
      refine ⟨⟨intVal y2, intVal mo2, intVal d2, hv, intVal (o2.take 2),
        intVal (o2.drop 2), pyExtension (s ++ t)⟩, ?_, ?_⟩
      · unfold parse_filename
        rw [hm2]
        dsimp only
        rw [if_neg (by simp [hWA2f]), if_pos hV]
        rw [show ([y2, mo2, d2, tag2, o2, w2].getD 3 []) = tag2 from rfl,
          htageq, hiv]
        rfl
      · exact hpe
    · refine ⟨⟨intVal (gs3.getD 0 []), intVal (gs3.getD 1 []),
        intVal (gs3.getD 2 []), intVal (gs3.getD 3 []),
        intVal (gs3.getD 4 []), intVal (gs3.getD 5 []),
        pyExtension (s ++ t)⟩, ?_, ?_⟩
      · unfold parse_filename
        rw [hm2]
        dsimp only
        rw [if_neg (by simp [hWA2f]), if_neg hV]
      · exact hpe

/-- Witness for C10: the grammar 1 name with a trailing .bak still parses and
its extension is the text after the last dot of the whole extended name. -/
theorem parse_accepts_appended_witness :
    ∃ r2, parse_filename ("2021-01-01 01.01.01.jpg".data ++ ".bak".data) =
        ParseOutcome.record r2 ∧
      r2.extension = specExtension ("2021-01-01 01.01.01.jpg".data ++ ".bak".data) :=
  parse_accepts_appended "2021-01-01 01.01.01.jpg".data ".bak".data
    ⟨2021, 1, 1, 1, 1, 1, "jpg".data⟩ (by decide)

end MediaRenamer
